import Mathlib

/-!
Lab3SP: the tokenizer of `main.cpp`.

A shallow embedding of the lexical tokenizer in `src/main.cpp`.

* A C++ `char` is a Lean `Char`; a `std::string` is a `List Char`.
* `std::isspace` and `std::ispunct` are taken in the "C" locale.
* The `std::regex` patterns are full matches (`std::regex_match`), written out as
  list matchers. A matcher gives the result of the match; the stack that the
  library's matcher uses while it runs, which grows with the number of characters it
  matches, is not part of the model, so `classify` is a total function here whatever
  the length of the span.
* The scan loop of `tokenize` is an index loop over `code`. Every read `code[k]` goes
  through `readAt`, which fails with `ScanError.outOfRange` when `k` is not a valid
  index, so an out-of-range access is an observable outcome of the model.
-/

namespace Lab3SP

/-! ## Data model (main.cpp lines 7-24) -/

/-- The `enum TokenType`. -/
inductive TokenType where
  | Keyword
  | Identifier
  | String
  | Number
  | HexadecimalNumber
  | DecimalNumber
  | Punctuation
  | Operator
  | Comment
  | PreprocessorDirective
  | Unknown
deriving DecidableEq, Repr

/-- The `struct Token`. -/
structure Token where
  value : List Char
  type : TokenType
deriving DecidableEq, Repr

/-! ## Character classes -/

/-- `std::isspace` in the "C" locale: space, `\t`, `\n`, `\v`, `\f`, `\r`. -/
def isspace (c : Char) : Bool :=
  c.toNat == 32 || (decide (9 ≤ c.toNat) && decide (c.toNat ≤ 13))

/-- `std::ispunct` in the "C" locale: the printable ASCII characters that are neither
alphanumeric nor the space. -/
def ispunct (c : Char) : Bool :=
  (decide (33 ≤ c.toNat) && decide (c.toNat ≤ 47)) ||
  (decide (58 ≤ c.toNat) && decide (c.toNat ≤ 64)) ||
  (decide (91 ≤ c.toNat) && decide (c.toNat ≤ 96)) ||
  (decide (123 ≤ c.toNat) && decide (c.toNat ≤ 126))

/-- The regex class `[0-9]` (also `\d`). -/
def isDigitChar (c : Char) : Bool :=
  decide ('0'.toNat ≤ c.toNat) && decide (c.toNat ≤ '9'.toNat)

/-- The regex class `[a-zA-Z]`. -/
def isLetterChar (c : Char) : Bool :=
  (decide ('a'.toNat ≤ c.toNat) && decide (c.toNat ≤ 'z'.toNat)) ||
  (decide ('A'.toNat ≤ c.toNat) && decide (c.toNat ≤ 'Z'.toNat))

/-- The regex class `[_a-zA-Z]`. -/
def isIdentStart (c : Char) : Bool :=
  c == '_' || isLetterChar c

/-- The regex class `[_a-zA-Z0-9]`. -/
def isIdentChar (c : Char) : Bool :=
  c == '_' || isLetterChar c || isDigitChar c

/-- The regex class `[0-9a-fA-F]`. -/
def isHexDigitChar (c : Char) : Bool :=
  isDigitChar c ||
  (decide ('a'.toNat ≤ c.toNat) && decide (c.toNat ≤ 'f'.toNat)) ||
  (decide ('A'.toNat ≤ c.toNat) && decide (c.toNat ≤ 'F'.toNat))

/-- The regex atom `.` (ECMAScript) over `char`: any character that is not a line
terminator `\n` or `\r`. -/
def isDotChar (c : Char) : Bool :=
  !(c == '\n' || c == '\r')

/-! ## Lookup tables and shape predicates (main.cpp lines 27-84) -/

/-- The vector `keywords` of `isKeyword`. -/
def keywords : List (List Char) :=
  ["abstract", "as", "base", "bool", "break", "byte", "case", "catch", "char", "checked",
   "class", "const", "continue", "decimal", "default", "delegate", "do", "double", "else",
   "enum", "event", "explicit", "extern", "false", "finally", "fixed", "float", "for",
   "foreach", "goto", "if", "implicit", "in", "int", "interface", "internal", "is", "lock",
   "long", "namespace", "new", "null", "object", "operator", "out", "override", "params",
   "private", "protected", "public", "readonly", "ref", "return", "sbyte", "sealed", "short",
   "sizeof", "stackalloc", "static", "string", "struct", "switch", "this", "throw", "true",
   "try", "typeof", "uint", "ulong", "unchecked", "unsafe", "ushort", "using", "virtual",
   "void", "volatile", "while"].map String.toList

/-- The vector `operators` of `isOperator`. -/
def operators : List (List Char) :=
  ["+", "-", "*", "/", "%", "&", "|", "^", "!", "~", "++", "--", "<<", ">>", "==", "!=",
   ">", "<", ">=", "<=", "&&", "||", "??", "?:", "=>", "=", "+=", "-=", "*=", "/=", "%=",
   "&=", "|=", "^=", "<<=", ">>=", "[]", "()", ".", "->"].map String.toList

/-- The vector `delimiters` of `isDelimiter`. -/
def delimiters : List (List Char) :=
  [",", ";", "\x7b", "\x7d", "(", ")", "[", "]", ":", "?"].map String.toList

/-- The vector `preprocessorKeywords` of `isPreprocessorDirective`. -/
def preprocessorKeywords : List (List Char) :=
  ["#if", "#elif", "#else", "#endif", "#define", "#undef", "#warning", "#error",
   "#line", "#region", "#endregion", "#pragma"].map String.toList

/-- `isKeyword`: `std::find` over the keyword vector. -/
def isKeyword (token : List Char) : Bool :=
  keywords.contains token

/-- `isIdentifier`: full match of `[_a-zA-Z][_a-zA-Z0-9]*`. -/
def isIdentifier (token : List Char) : Bool :=
  match token with
  | [] => false
  | c :: cs => isIdentStart c && cs.all isIdentChar

/-- The regex tail `([^"]|\\.)*"`: what may follow the opening quote of
`isStringConstant`. Each item is one character other than the quote, or a backslash
followed by one `.` character; the closing quote ends the token. -/
def matchStringBody : List Char → Bool
  | [] => false
  | [c] => c == '"'
  | c :: d :: rest =>
    (c != '"' && matchStringBody (d :: rest)) ||
    (c == '\\' && isDotChar d && matchStringBody rest)

/-- `isStringConstant`: full match of `"([^"]|\\.)*"`. -/
def isStringConstant (token : List Char) : Bool :=
  match token with
  | [] => false
  | c :: cs => c == '"' && matchStringBody cs

/-- `isHexadecimalNumber`: full match of `^0[xX][0-9a-fA-F]+$`. -/
def isHexadecimalNumber (token : List Char) : Bool :=
  match token with
  | z :: x :: d :: ds =>
    z == '0' && (x == 'x' || x == 'X') && (d :: ds).all isHexDigitChar
  | _ => false

/-- `isDecimalNumber`: full match of `^\d*\.\d+$`. The dot is not a digit, so the
leading `\d*` can only stop at the first character that is not a digit. -/
def isDecimalNumber (token : List Char) : Bool :=
  match token.dropWhile isDigitChar with
  | p :: d :: ds => p == '.' && (d :: ds).all isDigitChar
  | _ => false

/-- `isNumericConstant`: full match of `[0-9]+`. -/
def isNumericConstant (token : List Char) : Bool :=
  match token with
  | [] => false
  | c :: cs => (c :: cs).all isDigitChar

/-- `isOperator`: `std::find` over the operator vector. -/
def isOperator (token : List Char) : Bool :=
  operators.contains token

/-- `isDelimiter`: `std::find` over the delimiter vector. -/
def isDelimiter (token : List Char) : Bool :=
  delimiters.contains token

/-- `isPreprocessorDirective`: `std::find` over the directive vector. -/
def isPreprocessorDirective (token : List Char) : Bool :=
  preprocessorKeywords.contains token

/-! ## The scan loop of `tokenize` (main.cpp lines 86-163) -/

/-- What can go wrong in the model of the scan loop: a read outside `code`, or the
loop still running after `code.length` iterations. -/
inductive ScanError where
  | outOfRange
  | outOfFuel
deriving DecidableEq, Repr

/-- Outcomes of the scan can be compared. -/
instance instDecidableEqOutcome {α : Type} [DecidableEq α] :
    DecidableEq (Except ScanError α)
  | .ok a, .ok b => if h : a = b then isTrue (by rw [h]) else isFalse (fun e => h (by cases e; rfl))
  | .error a, .error b =>
    if h : a = b then isTrue (by rw [h]) else isFalse (fun e => h (by cases e; rfl))
  | .ok _, .error _ => isFalse (fun e => by cases e)
  | .error _, .ok _ => isFalse (fun e => by cases e)

/-- The locals of `tokenize` during the scan: the output vector, the accumulator,
the three mode flags and the loop index. -/
structure ScanState where
  tokens : List Token
  token : List Char
  isString : Bool
  isSingleLineComment : Bool
  isMultiLineComment : Bool
  i : Nat
deriving DecidableEq, Repr

/-- The read `code[k]`, failing when `k` is not below `code.length()`. -/
def readAt (code : List Char) (k : Nat) : Except ScanError Char :=
  match code[k]? with
  | some c => .ok c
  | none => .error .outOfRange

/-- Lines 98-103: a `/` outside a string and outside a block comment looks one
character ahead and may raise a comment flag. -/
def commentStart (code : List Char) (c : Char) (s : ScanState) :
    Except ScanError ScanState :=
  if c == '/' && !s.isString && !s.isMultiLineComment then
    if s.i + 1 < code.length then do
      let d ← readAt code (s.i + 1)
      if d == '/' then pure { s with isSingleLineComment := true }
      else if d == '*' then pure { s with isMultiLineComment := true }
      else pure s
    else pure s
  else pure s

/-- Lines 106-110: a newline in line-comment mode pushes the accumulator as a
`Comment` token. -/
def lineCommentEnd (c : Char) (s : ScanState) : ScanState :=
  if s.isSingleLineComment && c == '\n' then
    { s with isSingleLineComment := false,
             tokens := s.tokens ++ [⟨s.token, .Comment⟩],
             token := [] }
  else s

/-- The condition of line 111. The `&&` chain reads `code[i + 1]` only after
`i + 1 < code.length()` has held. -/
def blockCommentCloses (code : List Char) (c : Char) (s : ScanState) :
    Except ScanError Bool :=
  if s.isMultiLineComment && c == '*' && decide (s.i + 1 < code.length) then do
    let d ← readAt code (s.i + 1)
    pure (d == '/')
  else pure false

/-- Pushes a non-empty accumulator as an `Unknown` token and clears it
(lines 133-136, 144-147, 150-153). -/
def flushUnknown (s : ScanState) : ScanState :=
  if !s.token.isEmpty then
    { s with tokens := s.tokens ++ [⟨s.token, .Unknown⟩], token := [] }
  else s

/-- Lines 120-158, followed by the `++i` of the loop header. -/
def scanRest (c : Char) (s : ScanState) : ScanState :=
  if s.isSingleLineComment || s.isMultiLineComment then
    { s with token := s.token ++ [c], i := s.i + 1 }
  else if c == '"' then
    if s.isString then
      { s with tokens := s.tokens ++ [⟨s.token ++ [c], .String⟩],
               token := [], isString := false, i := s.i + 1 }
    else
      { flushUnknown s with isString := true, i := s.i + 1 }
  else if s.isString then
    { s with token := s.token ++ [c], i := s.i + 1 }
  else if isspace c then
    { flushUnknown s with i := s.i + 1 }
  else if ispunct c && c != '.' && c != '#' then
    let s1 := flushUnknown s
    { s1 with tokens := s1.tokens ++ [⟨[c], .Unknown⟩], i := s.i + 1 }
  else
    { s with token := s.token ++ [c], i := s.i + 1 }

/-- One iteration of the loop body (lines 95-158) with the `++i` that follows it. -/
def scanStep (code : List Char) (s : ScanState) : Except ScanError ScanState := do
  let c ← readAt code s.i
  let s1 ← commentStart code c s
  let s2 := lineCommentEnd c s1
  let closes ← blockCommentCloses code c s2
  if closes then
    -- lines 112-117: the body's `++i` and the header's `++i`
    pure { s2 with isMultiLineComment := false,
                   tokens := s2.tokens ++ [⟨s2.token ++ ['*', '/'], .Comment⟩],
                   token := [],
                   i := s2.i + 2 }
  else
    pure (scanRest c s2)

/-- The `for` loop of line 94, run for at most `fuel` iterations. -/
def scanLoop (code : List Char) : Nat → ScanState → Except ScanError ScanState
  | 0, s => if s.i < code.length then .error .outOfFuel else .ok s
  | fuel + 1, s =>
    if s.i < code.length then
      match scanStep code s with
      | .ok s1 => scanLoop code fuel s1
      | .error e => .error e
    else .ok s

/-- The state at line 94, before the first iteration. -/
def initState : ScanState :=
  ⟨[], [], false, false, false, 0⟩

/-- The scan phase (lines 87-163): the loop, then the flush of a non-empty
accumulator. The index grows in every iteration, so `code.length` iterations are
allowed. -/
def scan (code : List Char) : Except ScanError (List Token) :=
  match scanLoop code code.length initState with
  | .ok s => .ok (flushUnknown s).tokens
  | .error e => .error e

/-! ## The classification chain (main.cpp lines 165-175) -/

/-- The body of the loop of line 165, applied to one token. -/
def classify (t : Token) : Token :=
  if isKeyword t.value then { t with type := .Keyword }
  else if isPreprocessorDirective t.value then { t with type := .PreprocessorDirective }
  else if isIdentifier t.value then { t with type := .Identifier }
  else if isHexadecimalNumber t.value then { t with type := .HexadecimalNumber }
  else if isDecimalNumber t.value then { t with type := .DecimalNumber }
  else if isNumericConstant t.value then { t with type := .Number }
  else if isOperator t.value then { t with type := .Operator }
  else if isDelimiter t.value then { t with type := .Punctuation }
  else if isStringConstant t.value then { t with type := .String }
  else t

/-- The function `tokenize`. -/
def tokenize (code : List Char) : Except ScanError (List Token) :=
  match scan code with
  | .ok ts => .ok (ts.map classify)
  | .error e => .error e

/-! ## The scan loop as a recursion over the unread characters

`scanAhead` is the loop body as a function of the current character and of the
character after it (if there is one); `scanChars` runs it over the unread part of the
input. `scanLoop_eq_scanChars` below shows that the index loop computes exactly this,
without ever failing. -/

/-- The comment-start step as a function of the next character. -/
def commentStartAhead (c : Char) (next : Option Char) (s : ScanState) : ScanState :=
  if c == '/' && !s.isString && !s.isMultiLineComment then
    match next with
    | some d =>
      if d == '/' then { s with isSingleLineComment := true }
      else if d == '*' then { s with isMultiLineComment := true }
      else s
    | none => s
  else s

/-- The loop body, given the current character `c` and the next one. -/
def scanAhead (c : Char) (next : Option Char) (s : ScanState) : ScanState :=
  let s2 := lineCommentEnd c (commentStartAhead c next s)
  if s2.isMultiLineComment && c == '*' && next == some '/' then
    { s2 with isMultiLineComment := false,
              tokens := s2.tokens ++ [⟨s2.token ++ ['*', '/'], .Comment⟩],
              token := [],
              i := s2.i + 2 }
  else scanRest c s2

/-- Whether the iteration at `c` consumes the next character too (line 116). -/
def skipsNext (c : Char) (next : Option Char) (s : ScanState) : Bool :=
  (scanAhead c next s).i == s.i + 2

/-- The loop over the unread characters. -/
def scanChars (s : ScanState) : List Char → ScanState
  | [] => s
  | [c] => scanAhead c none s
  | c :: d :: rest =>
    if skipsNext c (some d) s then scanChars (scanAhead c (some d) s) rest
    else scanChars (scanAhead c (some d) s) (d :: rest)

/-! ## Vocabulary of the specification -/

/-- The values of a token list, concatenated in output order. -/
def concatValues (ts : List Token) : List Char :=
  (ts.map Token.value).flatten

/-- `deletesOnly p inp out`: `out` arises from `inp` by deleting characters that all
satisfy `p`; that is, `out` is a subsequence of `inp` and every omitted character
satisfies `p`. -/
def deletesOnly (p : Char → Bool) : List Char → List Char → Bool
  | [], [] => true
  | [], _ :: _ => false
  | c :: cs, [] => p c && deletesOnly p cs []
  | c :: cs, d :: ds =>
    (c == d && deletesOnly p cs ds) || (p c && deletesOnly p cs (d :: ds))

/-- The first character of a span satisfies `p`. -/
def headSat (p : Char → Bool) : List Char → Bool
  | [] => false
  | c :: _ => p c

/-- The text contains the character `a` immediately followed by `b`. -/
def hasPair (a b : Char) : List Char → Bool
  | [] => false
  | [_] => false
  | x :: y :: rest => (x == a && y == b) || hasPair a b (y :: rest)

/-- The characters the scan has kept so far: the values of the tokens pushed, then
the accumulator. -/
def pending (s : ScanState) : List Char :=
  concatValues s.tokens ++ s.token

/-- The condition of line 149: a punctuation character other than `.` and `#`. -/
def isSplitPunct (c : Char) : Bool :=
  ispunct c && c != '.' && c != '#'

/-- The punctuation characters other than `.`, `#` and the double quote. -/
def splitPunctChars : List Char :=
  "!$%&\x27()*+,-/:;<=>?@[\x5c]^_\x60\x7b|\x7d~".toList

/-- Every token is tagged Unknown and is either one character long or free of
splitting punctuation. -/
def PlainTokens (ts : List Token) : Prop :=
  ∀ t ∈ ts, t.type = .Unknown ∧
    (t.value.length = 1 ∨ ∀ c ∈ t.value, isSplitPunct c = false)

/-- The scan is outside strings and comments, and what it has collected so far is
plain. -/
def PlainState (s : ScanState) : Prop :=
  s.isString = false ∧ s.isSingleLineComment = false ∧ s.isMultiLineComment = false ∧
    (∀ c ∈ s.token, isSplitPunct c = false) ∧ PlainTokens s.tokens

/-- Hexadecimal shape: `0x` or `0X` followed by one or more hex digits. -/
def HexShape (v : List Char) : Prop :=
  ∃ x ds, v = '0' :: x :: ds ∧ (x = 'x' ∨ x = 'X') ∧ ds ≠ [] ∧
    ∀ d ∈ ds, isHexDigitChar d = true

/-- Decimal shape: zero or more digits, a dot, then one or more digits. -/
def DecimalShape (v : List Char) : Prop :=
  ∃ ds es, v = ds ++ '.' :: es ∧ (∀ d ∈ ds, isDigitChar d = true) ∧ es ≠ [] ∧
    ∀ e ∈ es, isDigitChar e = true

/-- Integer shape: one or more digits. -/
def IntegerShape (v : List Char) : Prop :=
  v ≠ [] ∧ ∀ d ∈ v, isDigitChar d = true

/-- One or more digits followed by a single trailing dot. -/
def TrailingDotShape (v : List Char) : Prop :=
  ∃ ds, v = ds ++ ['.'] ∧ ds ≠ [] ∧ ∀ d ∈ ds, isDigitChar d = true

/-! ## Facts about the tables and the character classes -/

theorem isDigitChar_iff (c : Char) :
    isDigitChar c = true ↔ 48 ≤ c.toNat ∧ c.toNat ≤ 57 := by
  simp [isDigitChar]

theorem isLetterChar_iff (c : Char) :
    isLetterChar c = true ↔
      (97 ≤ c.toNat ∧ c.toNat ≤ 122) ∨ (65 ≤ c.toNat ∧ c.toNat ≤ 90) := by
  simp [isLetterChar]

theorem ispunct_iff (c : Char) :
    ispunct c = true ↔
      (33 ≤ c.toNat ∧ c.toNat ≤ 47) ∨ (58 ≤ c.toNat ∧ c.toNat ≤ 64) ∨
      (91 ≤ c.toNat ∧ c.toNat ≤ 96) ∨ (123 ≤ c.toNat ∧ c.toNat ≤ 126) := by
  simp [ispunct, or_assoc]

theorem table_head (p : Char → Bool) (table : List (List Char))
    (h : table.all (headSat p) = true) {c : Char} {cs : List Char}
    (hc : table.contains (c :: cs) = true) : p c = true := by
  rw [List.all_eq_true] at h
  have hm : (c :: cs) ∈ table := by simpa using hc
  simpa [headSat] using h _ hm

theorem isKeyword_head {c : Char} {cs : List Char}
    (h : isKeyword (c :: cs) = true) : isLetterChar c = true :=
  table_head isLetterChar keywords (by decide) h

theorem isPreprocessorDirective_head {c : Char} {cs : List Char}
    (h : isPreprocessorDirective (c :: cs) = true) : (c == '#') = true :=
  table_head (fun c => c == '#') preprocessorKeywords (by decide) h

theorem isOperator_head {c : Char} {cs : List Char}
    (h : isOperator (c :: cs) = true) : ispunct c = true :=
  table_head ispunct operators (by decide) h

theorem isDelimiter_head {c : Char} {cs : List Char}
    (h : isDelimiter (c :: cs) = true) : ispunct c = true :=
  table_head ispunct delimiters (by decide) h

/-- A span that starts with a digit or a dot fails the first three tests of the
chain. -/
theorem not_word_of_numeric_head {c : Char} (cs : List Char)
    (h : isDigitChar c = true ∨ c = '.') :
    isKeyword (c :: cs) = false ∧ isPreprocessorDirective (c :: cs) = false ∧
      isIdentifier (c :: cs) = false := by
  have hl : isLetterChar c = false := by
    rcases h with h | h
    · rw [isDigitChar_iff] at h
      rw [Bool.eq_false_iff]
      intro hl
      rw [isLetterChar_iff] at hl
      omega
    · subst h; decide
  have hh : (c == '#') = false := by
    rcases h with h | h
    · rw [Bool.eq_false_iff]
      intro hc
      have : c = '#' := by simpa using hc
      subst this
      exact absurd h (by decide)
    · subst h; decide
  have hu : (c == '_') = false := by
    rcases h with h | h
    · rw [Bool.eq_false_iff]
      intro hc
      have : c = '_' := by simpa using hc
      subst this
      exact absurd h (by decide)
    · subst h; decide
  refine ⟨?_, ?_, ?_⟩
  · rw [Bool.eq_false_iff]
    intro hk
    rw [isKeyword_head hk] at hl
    exact absurd hl (by decide)
  · rw [Bool.eq_false_iff]
    intro hk
    rw [isPreprocessorDirective_head hk] at hh
    exact absurd hh (by decide)
  · simp [isIdentifier, isIdentStart, hl, hu]

/-- A span that starts with a digit is in neither table of the chain's tail, and is
not a quoted string. -/
theorem not_symbol_of_digit_head {c : Char} (cs : List Char)
    (h : isDigitChar c = true) :
    isOperator (c :: cs) = false ∧ isDelimiter (c :: cs) = false ∧
      isStringConstant (c :: cs) = false := by
  have hp : ispunct c = false := by
    rw [isDigitChar_iff] at h
    rw [Bool.eq_false_iff]
    intro hp
    rw [ispunct_iff] at hp
    omega
  have hq : (c == '"') = false := by
    rw [Bool.eq_false_iff]
    intro hc
    have : c = '"' := by simpa using hc
    subst this
    exact absurd h (by decide)
  refine ⟨?_, ?_, ?_⟩
  · rw [Bool.eq_false_iff]
    intro hk
    rw [isOperator_head hk] at hp
    exact absurd hp (by decide)
  · rw [Bool.eq_false_iff]
    intro hk
    rw [isDelimiter_head hk] at hp
    exact absurd hp (by decide)
  · simp [isStringConstant, hq]

theorem not_x_of_numeric {c : Char} (h : isDigitChar c = true ∨ c = '.') :
    (c == 'x' || c == 'X') = false := by
  rcases h with h | h
  · rw [Bool.eq_false_iff]
    intro hc
    have : c = 'x' ∨ c = 'X' := by simpa using hc
    rcases this with e | e <;> subst e <;> exact absurd h (by decide)
  · subst h; decide

/-- A span whose second character is a digit or a dot is not a hexadecimal literal. -/
theorem not_hex_of_second {a b : Char} (rest : List Char)
    (h : isDigitChar b = true ∨ b = '.') :
    isHexadecimalNumber (a :: b :: rest) = false := by
  cases rest with
  | nil => rfl
  | cons d ds => simp [isHexadecimalNumber, not_x_of_numeric h]

theorem dropWhile_digits_append (ds rest : List Char)
    (h : ∀ d ∈ ds, isDigitChar d = true) :
    (ds ++ '.' :: rest).dropWhile isDigitChar = '.' :: rest := by
  induction ds with
  | nil =>
    have : isDigitChar '.' = false := by decide
    simp [List.dropWhile, this]
  | cons d ds ih =>
    have hd : isDigitChar d = true := h d (List.mem_cons_self _ _)
    simp only [List.cons_append, List.dropWhile, hd]
    exact ih (fun e he => h e (List.mem_cons_of_mem _ he))

theorem dropWhile_digits_all (ds : List Char) (h : ∀ d ∈ ds, isDigitChar d = true) :
    ds.dropWhile isDigitChar = [] := by
  induction ds with
  | nil => rfl
  | cons d ds ih =>
    have hd : isDigitChar d = true := h d (List.mem_cons_self _ _)
    simp only [List.dropWhile, hd]
    exact ih (fun e he => h e (List.mem_cons_of_mem _ he))

/-! ## The classification chain on numeric shapes -/

theorem classify_hex (v : List Char) (h : HexShape v) :
    classify ⟨v, .Unknown⟩ = ⟨v, .HexadecimalNumber⟩ := by
  obtain ⟨x, ds, rfl, hx, hne, hds⟩ := h
  obtain ⟨h1, h2, h3⟩ := not_word_of_numeric_head (x :: ds) (c := '0') (Or.inl (by decide))
  cases ds with
  | nil => exact absurd rfl hne
  | cons d ds =>
    have h4 : isHexadecimalNumber ('0' :: x :: d :: ds) = true := by
      have hall : (d :: ds).all isHexDigitChar = true := by
        rw [List.all_eq_true]; exact hds
      have hx2 : (x == 'x' || x == 'X') = true := by
        rcases hx with e | e <;> subst e <;> decide
      simp only [isHexadecimalNumber, hall, hx2]
      decide
    simp [classify, h1, h2, h3, h4]

theorem classify_decimal (v : List Char) (h : DecimalShape v) :
    classify ⟨v, .Unknown⟩ = ⟨v, .DecimalNumber⟩ := by
  obtain ⟨ds, es, rfl, hds, hne, hes⟩ := h
  have h5 : isDecimalNumber (ds ++ '.' :: es) = true := by
    cases es with
    | nil => exact absurd rfl hne
    | cons e es =>
      have hall : (e :: es).all isDigitChar = true := by
        rw [List.all_eq_true]; exact hes
      simp only [isDecimalNumber, dropWhile_digits_append ds _ hds, hall]
      decide
  have hword : isKeyword (ds ++ '.' :: es) = false ∧
      isPreprocessorDirective (ds ++ '.' :: es) = false ∧
      isIdentifier (ds ++ '.' :: es) = false := by
    cases ds with
    | nil => exact not_word_of_numeric_head es (Or.inr rfl)
    | cons d ds =>
      exact not_word_of_numeric_head _ (Or.inl (hds d (List.mem_cons_self _ _)))
  have h4 : isHexadecimalNumber (ds ++ '.' :: es) = false := by
    match ds, hds with
    | [], _ =>
      cases es with
      | nil => rfl
      | cons e es =>
        cases es with
        | nil => rfl
        | cons e2 es => simp [isHexadecimalNumber]
    | [d], _ => exact not_hex_of_second es (Or.inr rfl)
    | d :: d2 :: ds, hds =>
      exact not_hex_of_second _
        (Or.inl (hds d2 (List.mem_cons_of_mem _ (List.mem_cons_self _ _))))
  obtain ⟨h1, h2, h3⟩ := hword
  simp [classify, h1, h2, h3, h4, h5]

theorem classify_integer (v : List Char) (h : IntegerShape v) :
    classify ⟨v, .Unknown⟩ = ⟨v, .Number⟩ := by
  obtain ⟨hne, hds⟩ := h
  cases v with
  | nil => exact absurd rfl hne
  | cons d ds =>
    have hd : isDigitChar d = true := hds d (List.mem_cons_self _ _)
    obtain ⟨h1, h2, h3⟩ := not_word_of_numeric_head ds (Or.inl hd)
    have h4 : isHexadecimalNumber (d :: ds) = false := by
      cases ds with
      | nil => rfl
      | cons d2 ds =>
        exact not_hex_of_second ds
          (Or.inl (hds d2 (List.mem_cons_of_mem _ (List.mem_cons_self _ _))))
    have h5 : isDecimalNumber (d :: ds) = false := by
      simp only [isDecimalNumber, dropWhile_digits_all _ hds]
    have h6 : isNumericConstant (d :: ds) = true := by
      simp only [isNumericConstant]
      rw [List.all_eq_true]; exact hds
    simp [classify, h1, h2, h3, h4, h5, h6]

theorem classify_trailing_dot (v : List Char) (h : TrailingDotShape v) :
    classify ⟨v, .Unknown⟩ = ⟨v, .Unknown⟩ := by
  obtain ⟨ds, rfl, hne, hds⟩ := h
  cases ds with
  | nil => exact absurd rfl hne
  | cons d ds =>
    have hd : isDigitChar d = true := hds d (List.mem_cons_self _ _)
    obtain ⟨h1, h2, h3⟩ := not_word_of_numeric_head (ds ++ ['.']) (Or.inl hd)
    obtain ⟨h7, h8, h9⟩ := not_symbol_of_digit_head (ds ++ ['.']) hd
    have h4 : isHexadecimalNumber (d :: ds ++ ['.']) = false := by
      cases ds with
      | nil => exact not_hex_of_second [] (Or.inr rfl)
      | cons d2 ds =>
        exact not_hex_of_second _
          (Or.inl (hds d2 (List.mem_cons_of_mem _ (List.mem_cons_self _ _))))
    have h5 : isDecimalNumber (d :: ds ++ ['.']) = false := by
      simp only [isDecimalNumber, dropWhile_digits_append (d :: ds) [] hds]
    have h6 : isNumericConstant (d :: ds ++ ['.']) = false := by
      have : isDigitChar '.' = false := by decide
      simp [isNumericConstant, this]
    simp only [List.cons_append] at h1 h2 h3 h4 h5 h6 h7 h8 h9
    simp [classify, h1, h2, h3, h4, h5, h6, h7, h8, h9]

/-! ## The index loop and the recursion over the unread characters agree -/

theorem readAt_of_some {code : List Char} {k : Nat} {c : Char}
    (h : code[k]? = some c) : readAt code k = .ok c := by
  simp [readAt, h]

theorem lineCommentEnd_i (c : Char) (s : ScanState) : (lineCommentEnd c s).i = s.i := by
  unfold lineCommentEnd
  split <;> rfl

theorem flushUnknown_i (s : ScanState) : (flushUnknown s).i = s.i := by
  unfold flushUnknown
  split <;> rfl

theorem scanRest_i (c : Char) (s : ScanState) : (scanRest c s).i = s.i + 1 := by
  unfold scanRest
  repeat' split
  all_goals rfl

theorem commentStartAhead_i (c : Char) (next : Option Char) (s : ScanState) :
    (commentStartAhead c next s).i = s.i := by
  unfold commentStartAhead
  repeat' split
  all_goals rfl

theorem commentStart_eq (code : List Char) (c : Char) (s : ScanState) :
    commentStart code c s = .ok (commentStartAhead c code[s.i + 1]? s) := by
  unfold commentStart commentStartAhead
  split
  · cases h : code[s.i + 1]? with
    | none =>
      have hlen : ¬ s.i + 1 < code.length := by
        rw [List.getElem?_eq_none_iff] at h; omega
      simp only [hlen, if_false]
      rfl
    | some d =>
      have hlen : s.i + 1 < code.length := by
        by_contra hc
        rw [List.getElem?_eq_none (by omega)] at h
        exact absurd h (by simp)
      simp only [hlen, if_true, readAt_of_some h]
      show (if (d == '/') = true then _ else _) = _
      repeat' split
      all_goals rfl
  · rfl

theorem blockCommentCloses_eq (code : List Char) (c : Char) (s : ScanState) :
    blockCommentCloses code c s =
      .ok (s.isMultiLineComment && c == '*' && code[s.i + 1]? == some '/') := by
  unfold blockCommentCloses
  cases h : code[s.i + 1]? with
  | none =>
    have hlen : ¬ s.i + 1 < code.length := by
      rw [List.getElem?_eq_none_iff] at h; omega
    have hn : ((none : Option Char) == some '/') = false := rfl
    simp only [hlen, decide_False, Bool.and_false, hn]
    rfl
  | some d =>
    have hlen : s.i + 1 < code.length := by
      by_contra hc
      rw [List.getElem?_eq_none (by omega)] at h
      exact absurd h (by simp)
    have hs : (some d == some '/') = (d == '/') := rfl
    simp only [hlen, decide_True, Bool.and_true, readAt_of_some h, hs]
    cases hb : (s.isMultiLineComment && c == '*') with
    | true => rfl
    | false => rfl

/-- One iteration of the index loop is the loop body applied to the current and the
next character; no read fails. -/
theorem scanStep_eq (code : List Char) (s : ScanState) (c : Char)
    (h : code[s.i]? = some c) :
    scanStep code s = .ok (scanAhead c code[s.i + 1]? s) := by
  unfold scanStep scanAhead
  simp only [readAt_of_some h, commentStart_eq, blockCommentCloses_eq, lineCommentEnd_i,
    commentStartAhead_i, bind, Except.bind, pure, Except.pure]
  split <;> rfl

theorem scanAhead_i (c : Char) (next : Option Char) (s : ScanState) :
    (scanAhead c next s).i = s.i + 2 ∨ (scanAhead c next s).i = s.i + 1 := by
  unfold scanAhead
  simp only []
  split
  · left
    simp only [lineCommentEnd_i, commentStartAhead_i]
  · right
    rw [scanRest_i, lineCommentEnd_i, commentStartAhead_i]

theorem scanAhead_none_i (c : Char) (s : ScanState) :
    (scanAhead c none s).i = s.i + 1 := by
  unfold scanAhead
  have hn : ((none : Option Char) == some '/') = false := rfl
  simp only [hn, Bool.and_false]
  rw [if_neg (by simp), scanRest_i, lineCommentEnd_i, commentStartAhead_i]

theorem getElem?_append_cons (pre suf : List Char) (c : Char) :
    (pre ++ c :: suf)[pre.length]? = some c := by
  rw [List.getElem?_append_right (Nat.le_refl _)]
  simp

theorem getElem?_append_cons_succ (pre suf : List Char) (c : Char) :
    (pre ++ c :: suf)[pre.length + 1]? = suf.head? := by
  rw [List.getElem?_append_right (by omega)]
  cases suf <;> simp

/-- The index loop, started at the boundary between a read part `pre` and an unread
part `suf` with enough fuel for `suf`, returns what the recursion over `suf` computes. -/
theorem scanLoop_eq_scanChars (fuel : Nat) :
    ∀ (pre suf : List Char) (s : ScanState), s.i = pre.length → suf.length ≤ fuel →
      scanLoop (pre ++ suf) fuel s = .ok (scanChars s suf) := by
  induction fuel with
  | zero =>
    intro pre suf s hi hfuel
    have : suf = [] := List.length_eq_zero.mp (by omega)
    subst this
    simp [scanLoop, scanChars, hi]
  | succ fuel ih =>
    intro pre suf s hi hfuel
    match suf, hfuel with
    | [], _ => simp [scanLoop, scanChars, hi]
    | [c], _ =>
      have hlt : s.i < (pre ++ [c]).length := by simp [hi]
      have hc : (pre ++ [c])[s.i]? = some c := by rw [hi]; exact getElem?_append_cons _ _ _
      have hn : (pre ++ [c])[s.i + 1]? = none := by
        rw [hi, getElem?_append_cons_succ]; rfl
      have hstep := scanStep_eq (pre ++ [c]) s c hc
      rw [hn] at hstep
      have hi2 : (scanAhead c none s).i = (pre ++ [c]).length := by
        rw [scanAhead_none_i, hi]; simp
      have := ih (pre ++ [c]) [] (scanAhead c none s) hi2 (by simp)
      rw [List.append_nil] at this
      simp only [scanLoop, hlt, if_true, hstep, this, scanChars]
    | c :: d :: rest, hfuel =>
      have hlt : s.i < (pre ++ c :: d :: rest).length := by simp [hi]
      have hc : (pre ++ c :: d :: rest)[s.i]? = some c := by
        rw [hi]; exact getElem?_append_cons _ _ _
      have hn : (pre ++ c :: d :: rest)[s.i + 1]? = some d := by
        rw [hi, getElem?_append_cons_succ]; rfl
      have hstep := scanStep_eq (pre ++ c :: d :: rest) s c hc
      rw [hn] at hstep
      simp only [List.length_cons] at hfuel
      by_cases hskip : skipsNext c (some d) s = true
      · have hi2 : (scanAhead c (some d) s).i = (pre ++ [c, d]).length := by
          have : (scanAhead c (some d) s).i = s.i + 2 := by
            simpa [skipsNext] using hskip
          rw [this, hi]; simp
        have := ih (pre ++ [c, d]) rest (scanAhead c (some d) s) hi2 (by omega)
        rw [List.append_assoc] at this
        simp only [List.cons_append, List.nil_append] at this
        simp only [scanLoop, hlt, if_true, hstep, this, scanChars, hskip]
      · have hi2 : (scanAhead c (some d) s).i = (pre ++ [c]).length := by
          have hne : ¬ (scanAhead c (some d) s).i = s.i + 2 := by
            simpa [skipsNext] using hskip
          rcases scanAhead_i c (some d) s with h2 | h1
          · exact absurd h2 hne
          · rw [h1, hi]; simp
        have := ih (pre ++ [c]) (d :: rest) (scanAhead c (some d) s) hi2
          (by simp only [List.length_cons]; omega)
        rw [List.append_assoc] at this
        simp only [List.cons_append, List.nil_append] at this
        simp only [scanLoop, hlt, if_true, hstep, this, scanChars, hskip]
        simp

/-- The scan phase never fails: it returns the tokens of the recursion over the
input, after the final flush. -/
theorem scan_eq (code : List Char) :
    scan code = .ok (flushUnknown (scanChars initState code)).tokens := by
  have h := scanLoop_eq_scanChars code.length [] code initState rfl (Nat.le_refl _)
  rw [List.nil_append] at h
  simp only [scan, h]

/-- The function `tokenize` never fails: its result is the classified token list of
the recursion over the input. -/
theorem tokenize_eq (code : List Char) :
    tokenize code =
      .ok ((flushUnknown (scanChars initState code)).tokens.map classify) := by
  simp only [tokenize, scan_eq]

theorem skipsNext_eq_false_of_i {c : Char} {next : Option Char} {s : ScanState}
    (h : (scanAhead c next s).i = s.i + 1) : skipsNext c next s = false := by
  simp [skipsNext, h]

/-- One unfolding of the recursion, whatever the length of the unread part. -/
theorem scanChars_cons (s : ScanState) (c : Char) (rest : List Char) :
    scanChars s (c :: rest) =
      if skipsNext c rest.head? s then scanChars (scanAhead c rest.head? s) rest.tail
      else scanChars (scanAhead c rest.head? s) rest := by
  cases rest with
  | nil =>
    simp only [List.head?_nil, skipsNext_eq_false_of_i (scanAhead_none_i c s)]
    rfl
  | cons d rest => rfl

/-- A step that appends the current character to the accumulator. -/
theorem scanChars_cons_of_append {s : ScanState} {c : Char} {rest : List Char}
    (h : scanAhead c rest.head? s = { s with token := s.token ++ [c], i := s.i + 1 }) :
    scanChars s (c :: rest) =
      scanChars { s with token := s.token ++ [c], i := s.i + 1 } rest := by
  have hi : (scanAhead c rest.head? s).i = s.i + 1 := by rw [h]
  rw [scanChars_cons, skipsNext_eq_false_of_i hi, h]
  simp

/-- Inside a string every character other than the quote is appended, whatever
follows it. -/
theorem scanAhead_in_string (c : Char) (next : Option Char) (s : ScanState)
    (hs : s.isString = true) (hl : s.isSingleLineComment = false)
    (hm : s.isMultiLineComment = false) (hc : c ≠ '"') :
    scanAhead c next s = { s with token := s.token ++ [c], i := s.i + 1 } := by
  have hq : (c == '"') = false := by simpa using hc
  simp [scanAhead, commentStartAhead, lineCommentEnd, scanRest, hs, hl, hm, hq]

theorem scanChars_in_string (cs : List Char) :
    ∀ (s : ScanState) (rest : List Char), s.isString = true →
      s.isSingleLineComment = false → s.isMultiLineComment = false →
      (∀ c ∈ cs, c ≠ '"') →
      scanChars s (cs ++ rest) =
        scanChars { s with token := s.token ++ cs, i := s.i + cs.length } rest := by
  induction cs with
  | nil => intro s rest _ _ _ _; simp
  | cons c cs ih =>
    intro s rest hs hl hm hcs
    have hc : c ≠ '"' := hcs c (List.mem_cons_self _ _)
    rw [List.cons_append,
      scanChars_cons_of_append (scanAhead_in_string c _ s hs hl hm hc),
      ih { s with token := s.token ++ [c], i := s.i + 1 } rest hs hl hm
        (fun d hd => hcs d (List.mem_cons_of_mem _ hd))]
    simp [Nat.add_assoc, Nat.add_comm 1]

/-- Inside a line comment (and outside a block comment) a character other than the
newline is appended, unless it is a `/` followed by a `*`. -/
theorem scanAhead_in_line_comment (c : Char) (next : Option Char) (s : ScanState)
    (hl : s.isSingleLineComment = true) (hm : s.isMultiLineComment = false)
    (hc : c ≠ '\n') (hp : ¬ (c = '/' ∧ next = some '*')) :
    scanAhead c next s = { s with token := s.token ++ [c], i := s.i + 1 } := by
  have hq : (c == '\n') = false := by simpa using hc
  have h1 : commentStartAhead c next s = s := by
    unfold commentStartAhead
    split
    · rename_i hg
      have hc2 : c = '/' := by
        simp only [Bool.and_eq_true, beq_iff_eq] at hg
        exact hg.1.1
      cases next with
      | none => rfl
      | some d =>
        have hd : (d == '*') = false := by
          rw [Bool.eq_false_iff]
          intro hd
          have : d = '*' := by simpa using hd
          exact hp ⟨hc2, by rw [this]⟩
        simp only [hd]
        split
        · cases s; simp_all
        · rfl
    · rfl
  simp [scanAhead, h1, lineCommentEnd, scanRest, hl, hm, hq]

theorem hasPair_cons_cons {a b x y : Char} {rest : List Char}
    (h : hasPair a b (x :: y :: rest) = false) :
    ¬ (x = a ∧ y = b) ∧ hasPair a b (y :: rest) = false := by
  simp only [hasPair, Bool.or_eq_false_iff, Bool.and_eq_false_iff] at h
  refine ⟨?_, h.2⟩
  rintro ⟨rfl, rfl⟩
  simp at h

theorem scanChars_in_line_comment (cs : List Char) :
    ∀ (s : ScanState) (rest : List Char), s.isSingleLineComment = true →
      s.isMultiLineComment = false → (∀ c ∈ cs, c ≠ '\n') →
      hasPair '/' '*' (cs ++ rest.head?.toList) = false →
      scanChars s (cs ++ rest) =
        scanChars { s with token := s.token ++ cs, i := s.i + cs.length } rest := by
  induction cs with
  | nil => intro s rest _ _ _ _; simp
  | cons c cs ih =>
    intro s rest hl hm hcs hp
    have hc : c ≠ '\n' := hcs c (List.mem_cons_self _ _)
    have hnext : ¬ (c = '/' ∧ (cs ++ rest).head? = some '*') ∧
        hasPair '/' '*' (cs ++ rest.head?.toList) = false := by
      cases cs with
      | nil =>
        cases rest with
        | nil => simp [hasPair]
        | cons d rest =>
          have := @hasPair_cons_cons '/' '*' c d [] hp
          simpa [hasPair] using this.1
      | cons d cs =>
        have := hasPair_cons_cons hp
        exact ⟨by simpa using this.1, this.2⟩
    rw [List.cons_append,
      scanChars_cons_of_append (scanAhead_in_line_comment c _ s hl hm hc hnext.1),
      ih { s with token := s.token ++ [c], i := s.i + 1 } rest hl hm
        (fun d hd => hcs d (List.mem_cons_of_mem _ hd)) hnext.2]
    simp [Nat.add_assoc, Nat.add_comm 1]

/-- Only a `/` or a `*` makes the loop body look at the next character. -/
theorem scanAhead_plain (c : Char) (next : Option Char) (s : ScanState)
    (h1 : c ≠ '/') (h2 : c ≠ '*') : scanAhead c next s = scanAhead c none s := by
  have e1 : (c == '/') = false := by simpa using h1
  have e2 : (c == '*') = false := by simpa using h2
  simp [scanAhead, commentStartAhead, e1, e2]

theorem scanChars_cons_plain (s : ScanState) (c : Char) (rest : List Char)
    (h1 : c ≠ '/') (h2 : c ≠ '*') :
    scanChars s (c :: rest) = scanChars (scanAhead c none s) rest := by
  rw [scanChars_cons, scanAhead_plain c _ s h1 h2,
    skipsNext_eq_false_of_i]
  · simp
  · rw [scanAhead_plain c _ s h1 h2, scanAhead_none_i]

/-- A stretch without `/` and `*` can be scanned on its own. -/
theorem scanChars_append_plain (pre : List Char) :
    ∀ (s : ScanState) (rest : List Char), (∀ c ∈ pre, c ≠ '/' ∧ c ≠ '*') →
      scanChars s (pre ++ rest) = scanChars (scanChars s pre) rest := by
  induction pre with
  | nil => intro s rest _; rfl
  | cons c pre ih =>
    intro s rest h
    have hc := h c (List.mem_cons_self _ _)
    rw [List.cons_append, scanChars_cons_plain s c _ hc.1 hc.2,
      scanChars_cons_plain s c _ hc.1 hc.2,
      ih _ rest (fun d hd => h d (List.mem_cons_of_mem _ hd))]

/-! ## Spans that the classification chain leaves alone -/

theorem table_no_char (q : Char) (table : List (List Char))
    (h : table.all (fun k => !k.contains q) = true) {v : List Char}
    (hv : table.contains v = true) : q ∉ v := by
  rw [List.all_eq_true] at h
  have hm : v ∈ table := by simpa using hv
  simpa using h v hm

theorem isIdentifier_all {v : List Char} (h : isIdentifier v = true) :
    ∀ c ∈ v, isIdentChar c = true := by
  cases v with
  | nil => intro c hc; cases hc
  | cons a as =>
    simp only [isIdentifier, Bool.and_eq_true, List.all_eq_true] at h
    intro c hc
    rcases List.mem_cons.mp hc with rfl | hc
    · have := h.1
      simp only [isIdentStart, Bool.or_eq_true] at this
      simp only [isIdentChar, Bool.or_eq_true]
      exact Or.inl this
    · exact h.2 c hc

theorem isNumericConstant_all {v : List Char} (h : isNumericConstant v = true) :
    ∀ c ∈ v, isDigitChar c = true := by
  cases v with
  | nil => intro c hc; cases hc
  | cons a as =>
    simp only [isNumericConstant, List.all_eq_true] at h
    exact h

theorem isHexadecimalNumber_all {v : List Char} (h : isHexadecimalNumber v = true) :
    ∀ c ∈ v, isHexDigitChar c = true ∨ c = 'x' ∨ c = 'X' := by
  match v, h with
  | z :: x :: d :: ds, h =>
    simp only [isHexadecimalNumber, Bool.and_eq_true, Bool.or_eq_true, beq_iff_eq,
      List.all_eq_true] at h
    intro c hc
    rcases List.mem_cons.mp hc with rfl | hc
    · left; rw [h.1.1]; decide
    · rcases List.mem_cons.mp hc with rfl | hc
      · right; exact h.1.2
      · left; exact h.2 c hc

theorem isDecimalNumber_all {v : List Char} (h : isDecimalNumber v = true) :
    ∀ c ∈ v, isDigitChar c = true ∨ c = '.' := by
  intro c hc
  rw [← List.takeWhile_append_dropWhile isDigitChar v] at hc
  rcases List.mem_append.mp hc with hc | hc
  · left
    exact (List.mem_takeWhile_imp hc)
  · unfold isDecimalNumber at h
    split at h
    · rename_i p d ds heq
      rw [heq] at hc
      simp only [Bool.and_eq_true, beq_iff_eq, List.all_eq_true] at h
      rcases List.mem_cons.mp hc with rfl | hc
      · right; exact h.1
      · left; exact h.2 c hc
    · exact absurd h (by simp)

/-- A span that holds a character `q` which is no identifier character, no hex digit
and no dot, and which occurs in no keyword and no directive, fails the first six tests
of the chain. -/
theorem not_word_number_of_mem {q : Char} {v : List Char} (hq : q ∈ v)
    (hi : isIdentChar q = false) (hx : isHexDigitChar q = false) (hd : q ≠ '.')
    (hk : keywords.all (fun k => !k.contains q) = true)
    (hp : preprocessorKeywords.all (fun k => !k.contains q) = true) :
    isKeyword v = false ∧ isPreprocessorDirective v = false ∧ isIdentifier v = false ∧
      isHexadecimalNumber v = false ∧ isDecimalNumber v = false ∧
      isNumericConstant v = false := by
  have hdig : isDigitChar q = false := by
    simp only [isIdentChar, Bool.or_eq_false_iff] at hi
    exact hi.2
  have hxx : q ≠ 'x' ∧ q ≠ 'X' := by
    constructor <;> rintro rfl <;> exact absurd hi (by decide)
  refine ⟨?_, ?_, ?_, ?_, ?_, ?_⟩
  · rw [Bool.eq_false_iff]
    intro h
    exact table_no_char q keywords hk h hq
  · rw [Bool.eq_false_iff]
    intro h
    exact table_no_char q preprocessorKeywords hp h hq
  · rw [Bool.eq_false_iff]
    intro h
    rw [isIdentifier_all h q hq] at hi
    exact absurd hi (by decide)
  · rw [Bool.eq_false_iff]
    intro h
    rcases isHexadecimalNumber_all h q hq with h1 | h1 | h1
    · rw [h1] at hx; exact absurd hx (by decide)
    · exact hxx.1 h1
    · exact hxx.2 h1
  · rw [Bool.eq_false_iff]
    intro h
    rcases isDecimalNumber_all h q hq with h1 | h1
    · rw [h1] at hdig; exact absurd hdig (by decide)
    · exact hd h1
  · rw [Bool.eq_false_iff]
    intro h
    rw [isNumericConstant_all h q hq] at hdig
    exact absurd hdig (by decide)

/-- A String token whose value holds a quote keeps its value and its kind. -/
theorem classify_string_of_quote (v : List Char) (hq : '"' ∈ v) :
    classify ⟨v, .String⟩ = ⟨v, .String⟩ := by
  obtain ⟨h1, h2, h3, h4, h5, h6⟩ :=
    not_word_number_of_mem hq (by decide) (by decide) (by decide) (by decide) (by decide)
  have h7 : isOperator v = false := by
    rw [Bool.eq_false_iff]
    intro h
    exact table_no_char '"' operators (by decide) h hq
  have h8 : isDelimiter v = false := by
    rw [Bool.eq_false_iff]
    intro h
    exact table_no_char '"' delimiters (by decide) h hq
  simp only [classify, h1, h2, h3, h4, h5, h6, h7, h8]
  simp

theorem isOperator_second {a b : Char} {rest : List Char}
    (h : isOperator (a :: b :: rest) = true) : b ≠ '/' ∧ b ≠ '*' := by
  have hall : operators.all (fun k => k[1]? != some '/' && k[1]? != some '*') = true := by
    decide
  rw [List.all_eq_true] at hall
  have hm : (a :: b :: rest) ∈ operators := by simpa [isOperator] using h
  have := hall _ hm
  simpa using this

theorem isDelimiter_length {v : List Char} (h : isDelimiter v = true) : v.length = 1 := by
  have hall : delimiters.all (fun k => k.length == 1) = true := by decide
  rw [List.all_eq_true] at hall
  have hm : v ∈ delimiters := by simpa [isDelimiter] using h
  simpa using hall _ hm

/-- A token whose value starts with `//` or `/*` keeps its value and its kind. -/
theorem classify_of_comment_start (c : Char) (b : List Char) (ty : TokenType)
    (hc : c = '/' ∨ c = '*') :
    classify ⟨'/' :: c :: b, ty⟩ = ⟨'/' :: c :: b, ty⟩ := by
  obtain ⟨h1, h2, h3, h4, h5, h6⟩ :=
    not_word_number_of_mem (List.mem_cons_self '/' (c :: b))
      (by decide) (by decide) (by decide) (by decide) (by decide)
  have h7 : isOperator ('/' :: c :: b) = false := by
    rw [Bool.eq_false_iff]
    intro h
    have := isOperator_second h
    rcases hc with e | e
    · exact this.1 e
    · exact this.2 e
  have h8 : isDelimiter ('/' :: c :: b) = false := by
    rw [Bool.eq_false_iff]
    intro h
    have := isDelimiter_length h
    simp at this
  have h9 : isStringConstant ('/' :: c :: b) = false := by
    simp [isStringConstant]
  simp only [classify, h1, h2, h3, h4, h5, h6, h7, h8, h9]
  simp

theorem hasPair_append_singleton (a b x : Char) (hx : x ≠ b) :
    ∀ l : List Char, hasPair a b l = false → hasPair a b (l ++ [x]) = false
  | [], _ => rfl
  | [y], _ => by
    have : (x == b) = false := by simpa using hx
    simp [hasPair, this]
  | y :: z :: rest, h => by
    have h2 := hasPair_cons_cons h
    have ih := hasPair_append_singleton a b x hx (z :: rest) h2.2
    simp only [List.cons_append] at ih ⊢
    simp only [hasPair, ih, Bool.or_false, Bool.and_eq_false_iff]
    by_cases hy : y = a
    · right
      have : z ≠ b := fun hz => h2.1 ⟨hy, hz⟩
      simpa using this
    · left
      simpa using hy

/-! ## What the scan does on a quoted string and on a line comment -/

/-- A closing quote followed by `;` ends the string and adds the two tokens. -/
theorem scanChars_close_string (toks : List Token) (tok : List Char) (n : Nat) :
    scanChars ⟨toks, tok, true, false, false, n⟩ ['"', ';'] =
      ⟨toks ++ [⟨tok ++ ['"'], .String⟩] ++ [⟨[';'], .Unknown⟩], [], false, false, false,
        n + 1 + 1⟩ := by
  have e1 : skipsNext '"' (some ';') ⟨toks, tok, true, false, false, n⟩ = false := by
    apply skipsNext_eq_false_of_i
    rw [scanAhead_plain _ _ _ (by decide) (by decide), scanAhead_none_i]
  have e2 : scanAhead '"' (some ';') ⟨toks, tok, true, false, false, n⟩ =
      ⟨toks ++ [⟨tok ++ ['"'], .String⟩], [], false, false, false, n + 1⟩ := by
    simp [scanAhead, commentStartAhead, lineCommentEnd, scanRest]
  have e3 : scanAhead ';' none
      ⟨toks ++ [⟨tok ++ ['"'], .String⟩], [], false, false, false, n + 1⟩ =
      ⟨toks ++ [⟨tok ++ ['"'], .String⟩] ++ [⟨[';'], .Unknown⟩], [], false, false, false,
        n + 1 + 1⟩ := by
    have p1 : isspace ';' = false := by decide
    have p2 : ispunct ';' = true := by decide
    simp [scanAhead, commentStartAhead, lineCommentEnd, scanRest, flushUnknown, p1, p2]
  simp only [scanChars, e1, e2, e3]
  simp

/-- Quoted strings, for every string body: on `x = "` + `s` + `";` with `s`
free of quotes the result has the four tokens of the claim, except that the value of
the String token is `s` followed by the closing quote only. -/
theorem tokenize_assign_string (s : List Char) (hs : ∀ c ∈ s, c ≠ '"') :
    tokenize ("x = \"".toList ++ s ++ "\";".toList) =
      .ok [⟨"x".toList, .Identifier⟩, ⟨"=".toList, .Operator⟩,
           ⟨s ++ "\"".toList, .String⟩, ⟨";".toList, .Punctuation⟩] := by
  rw [tokenize_eq, List.append_assoc,
    scanChars_append_plain _ _ _ (by decide)]
  have h0 : scanChars initState "x = \"".toList =
      ⟨[⟨"x".toList, .Unknown⟩, ⟨"=".toList, .Unknown⟩], [], true, false, false, 5⟩ := by
    decide
  rw [h0, scanChars_in_string s _ _ rfl rfl rfl hs]
  have hq : '"' ∈ s ++ ['"'] := by simp
  have hcl := classify_string_of_quote _ hq
  have c1 : classify ⟨['x'], .Unknown⟩ = ⟨['x'], .Identifier⟩ := by decide
  have c2 : classify ⟨['='], .Unknown⟩ = ⟨['='], .Operator⟩ := by decide
  have c3 : classify ⟨[';'], .Unknown⟩ = ⟨[';'], .Punctuation⟩ := by decide
  show Except.ok (List.map classify (flushUnknown (scanChars
    ⟨[⟨['x'], .Unknown⟩, ⟨['='], .Unknown⟩], [] ++ s, true, false, false, 5 + s.length⟩
    ['"', ';'])).tokens) = Except.ok [⟨['x'], .Identifier⟩, ⟨['='], .Operator⟩,
      ⟨s ++ ['"'], .String⟩, ⟨[';'], .Punctuation⟩]
  rw [scanChars_close_string]
  simp [flushUnknown, c1, c2, c3, hcl]

/-- The quote-free body `hello world` in `tokenize_assign_string`. -/
theorem tokenize_assign_string_witness :
    (∀ c ∈ "hello world".toList, c ≠ '"') ∧
    tokenize ("x = \"".toList ++ "hello world".toList ++ "\";".toList) =
      .ok [⟨"x".toList, .Identifier⟩, ⟨"=".toList, .Operator⟩,
           ⟨"hello world".toList ++ "\"".toList, .String⟩,
           ⟨";".toList, .Punctuation⟩] :=
  ⟨by decide, tokenize_assign_string "hello world".toList (by decide)⟩

/-- The newline that ends a line comment pushes the accumulator as a Comment token. -/
theorem scanChars_end_line_comment (toks : List Token) (tok : List Char) (n : Nat) :
    scanChars ⟨toks, tok, false, true, false, n⟩ ['\n'] =
      ⟨toks ++ [⟨tok, .Comment⟩], [], false, false, false, n + 1⟩ := by
  have p1 : isspace '\n' = true := by decide
  simp [scanChars, scanAhead, commentStartAhead, lineCommentEnd, scanRest, flushUnknown, p1]

/-- Line comments without a block-comment start: when `b` has no newline
and `//` + `b` does not contain `/*`, the input `//` + `b` + newline gives exactly one
token, Comment `//` + `b`. -/
theorem tokenize_line_comment (b : List Char) (hb : ∀ c ∈ b, c ≠ '\n')
    (hp : hasPair '/' '*' ("//".toList ++ b) = false) :
    tokenize ("//".toList ++ b ++ "\n".toList) = .ok [⟨"//".toList ++ b, .Comment⟩] := by
  rw [tokenize_eq]
  have hp2 : hasPair '/' '*' ('/' :: b) = false :=
    (hasPair_cons_cons (show hasPair '/' '*' ('/' :: '/' :: b) = false from hp)).2
  have hp3 : hasPair '/' '*' (('/' :: b) ++ (['\n'] : List Char).head?.toList) = false :=
    hasPair_append_singleton '/' '*' '\n' (by decide) _ hp2
  have h1 : scanAhead '/' (some '/') initState = ⟨[], ['/'], false, true, false, 1⟩ := by
    decide
  have hskip : skipsNext '/' (some '/') initState = false := by decide
  have hb2 : ∀ c ∈ '/' :: b, c ≠ '\n' := by
    intro c hc
    rcases List.mem_cons.mp hc with rfl | hc
    · decide
    · exact hb c hc
  have hrun := scanChars_in_line_comment ('/' :: b) ⟨[], ['/'], false, true, false, 1⟩
    ['\n'] rfl rfl hb2 hp3
  show Except.ok (List.map classify (flushUnknown (scanChars initState
    ('/' :: '/' :: (b ++ ['\n'])))).tokens) = Except.ok [⟨'/' :: '/' :: b, .Comment⟩]
  rw [scanChars_cons]
  simp only [List.head?_cons, hskip, h1]
  rw [if_neg (by simp)]
  simp only [List.cons_append] at hrun
  rw [hrun, scanChars_end_line_comment]
  simp [flushUnknown, classify_of_comment_start]

/-- The body ` comment` in `tokenize_line_comment`. -/
theorem tokenize_line_comment_witness :
    (∀ c ∈ " comment".toList, c ≠ '\n') ∧
    hasPair '/' '*' ("//".toList ++ " comment".toList) = false ∧
    tokenize ("//".toList ++ " comment".toList ++ "\n".toList) =
      .ok [⟨"//".toList ++ " comment".toList, .Comment⟩] :=
  ⟨by decide, by decide, tokenize_line_comment " comment".toList (by decide) (by decide)⟩

/-! ## What the scan does on a block comment and on a plain word -/

/-- Inside a block comment (and outside a line comment) a character is appended,
unless it is a `*` followed by a `/`. -/
theorem scanAhead_in_block_comment (c : Char) (next : Option Char) (s : ScanState)
    (hl : s.isSingleLineComment = false) (hm : s.isMultiLineComment = true)
    (hp : ¬ (c = '*' ∧ next = some '/')) :
    scanAhead c next s = { s with token := s.token ++ [c], i := s.i + 1 } := by
  have hcl : (c == '*' && next == some '/') = false := by
    rw [Bool.eq_false_iff]
    intro h
    simp only [Bool.and_eq_true, beq_iff_eq] at h
    exact hp h
  simp [scanAhead, commentStartAhead, lineCommentEnd, scanRest, hl, hm]
  intro h1 h2
  rw [h1, h2] at hcl
  exact absurd hcl (by decide)

theorem scanChars_in_block_comment (cs : List Char) :
    ∀ (s : ScanState) (rest : List Char), s.isSingleLineComment = false →
      s.isMultiLineComment = true →
      hasPair '*' '/' (cs ++ rest.head?.toList) = false →
      scanChars s (cs ++ rest) =
        scanChars { s with token := s.token ++ cs, i := s.i + cs.length } rest := by
  induction cs with
  | nil => intro s rest _ _ _; simp
  | cons c cs ih =>
    intro s rest hl hm hp
    have hnext : ¬ (c = '*' ∧ (cs ++ rest).head? = some '/') ∧
        hasPair '*' '/' (cs ++ rest.head?.toList) = false := by
      cases cs with
      | nil =>
        cases rest with
        | nil => simp [hasPair]
        | cons d rest =>
          have := @hasPair_cons_cons '*' '/' c d [] hp
          simpa [hasPair] using this.1
      | cons d cs =>
        have := hasPair_cons_cons hp
        exact ⟨by simpa using this.1, this.2⟩
    rw [List.cons_append,
      scanChars_cons_of_append (scanAhead_in_block_comment c _ s hl hm hnext.1),
      ih { s with token := s.token ++ [c], i := s.i + 1 } rest hl hm hnext.2]
    simp [Nat.add_assoc, Nat.add_comm 1]

/-- The closing marker of a block comment pushes the Comment token; the `x` after it
is left in the accumulator. -/
theorem scanChars_close_block_comment (toks : List Token) (tok : List Char) (n : Nat) :
    scanChars ⟨toks, tok, false, false, true, n⟩ ['*', '/', 'x'] =
      ⟨toks ++ [⟨tok ++ ['*', '/'], .Comment⟩], ['x'], false, false, false, n + 2 + 1⟩ := by
  have p1 : isspace 'x' = false := by decide
  have p2 : ispunct 'x' = false := by decide
  simp [scanChars, skipsNext, scanAhead, commentStartAhead, lineCommentEnd, scanRest, p1, p2]

/-- Block comments whose body does not start with a slash: when `b` does not contain
`*/` and does not start with `/`, the input `/*` + `b` + `*/` + `x` gives exactly the
Comment token `/*` + `b` + `*/` and Identifier `x`. -/
theorem tokenize_block_comment (b : List Char) (hp : hasPair '*' '/' b = false)
    (hh : b.head? ≠ some '/') :
    tokenize ("/*".toList ++ b ++ "*/".toList ++ "x".toList) =
      .ok [⟨"/*".toList ++ b ++ "*/".toList, .Comment⟩, ⟨"x".toList, .Identifier⟩] := by
  rw [tokenize_eq]
  have hp2 : hasPair '*' '/' ('*' :: b) = false := by
    cases b with
    | nil => rfl
    | cons d b =>
      have hd : (d == '/') = false := by
        rw [Bool.eq_false_iff]
        intro h
        have : d = '/' := by simpa using h
        exact hh (by rw [this]; rfl)
      simp [hasPair, hp, hd]
  have hp3 : hasPair '*' '/' (('*' :: b) ++ (['*', '/', 'x'] : List Char).head?.toList)
      = false :=
    hasPair_append_singleton '*' '/' '*' (by decide) _ hp2
  have h1 : scanAhead '/' (some '*') initState = ⟨[], ['/'], false, false, true, 1⟩ := by
    decide
  have hskip : skipsNext '/' (some '*') initState = false := by decide
  have hrun := scanChars_in_block_comment ('*' :: b) ⟨[], ['/'], false, false, true, 1⟩
    ['*', '/', 'x'] rfl rfl hp3
  have c1 : classify ⟨['x'], .Unknown⟩ = ⟨['x'], .Identifier⟩ := by decide
  show Except.ok (List.map classify (flushUnknown (scanChars initState
    ('/' :: '*' :: b ++ ['*', '/'] ++ ['x']))).tokens) =
      Except.ok [⟨'/' :: '*' :: b ++ ['*', '/'], .Comment⟩, ⟨['x'], .Identifier⟩]
  rw [List.append_assoc, List.cons_append, List.cons_append, scanChars_cons]
  simp only [List.head?_cons, hskip, h1]
  rw [if_neg (by simp)]
  simp only [List.cons_append, List.nil_append] at hrun ⊢
  rw [hrun, scanChars_close_block_comment]
  simp [flushUnknown, classify_of_comment_start, c1]

/-- The body of the specification's example in `tokenize_block_comment`. -/
theorem tokenize_block_comment_witness :
    hasPair '*' '/' " multi\nline ".toList = false ∧
    " multi\nline ".toList.head? ≠ some '/' ∧
    tokenize ("/*".toList ++ " multi\nline ".toList ++ "*/".toList ++ "x".toList) =
      .ok [⟨"/*".toList ++ " multi\nline ".toList ++ "*/".toList, .Comment⟩,
           ⟨"x".toList, .Identifier⟩] :=
  ⟨by decide, by decide,
    tokenize_block_comment " multi\nline ".toList (by decide) (by decide)⟩

/-- Outside strings and comments a letter or digit is appended to the accumulator. -/
theorem scanAhead_alnum (c : Char) (next : Option Char) (s : ScanState)
    (hs : s.isString = false) (hl : s.isSingleLineComment = false)
    (hm : s.isMultiLineComment = false)
    (hc : isLetterChar c = true ∨ isDigitChar c = true) :
    scanAhead c next s = { s with token := s.token ++ [c], i := s.i + 1 } := by
  have hr : (97 ≤ c.toNat ∧ c.toNat ≤ 122) ∨ (65 ≤ c.toNat ∧ c.toNat ≤ 90) ∨
      (48 ≤ c.toNat ∧ c.toNat ≤ 57) := by
    rcases hc with h | h
    · rw [isLetterChar_iff] at h
      rcases h with h | h
      · exact Or.inl h
      · exact Or.inr (Or.inl h)
    · rw [isDigitChar_iff] at h
      exact Or.inr (Or.inr h)
  have p1 : isspace c = false := by
    rw [Bool.eq_false_iff]
    intro h
    simp [isspace] at h
    omega
  have p2 : ispunct c = false := by
    rw [Bool.eq_false_iff]
    intro h
    rw [ispunct_iff] at h
    omega
  have p3 : (c == '"') = false := by
    rw [Bool.eq_false_iff]
    intro h
    have : c = '"' := by simpa using h
    subst this
    simp at hr
  have p4 : (c == '/') = false := by
    rw [Bool.eq_false_iff]
    intro h
    have : c = '/' := by simpa using h
    subst this
    simp at hr
  simp [scanAhead, commentStartAhead, lineCommentEnd, scanRest, hs, hl, hm, p1, p2, p3, p4]

theorem scanChars_alnum (cs : List Char) :
    ∀ (s : ScanState) (rest : List Char), s.isString = false →
      s.isSingleLineComment = false → s.isMultiLineComment = false →
      (∀ c ∈ cs, isLetterChar c = true ∨ isDigitChar c = true) →
      scanChars s (cs ++ rest) =
        scanChars { s with token := s.token ++ cs, i := s.i + cs.length } rest := by
  induction cs with
  | nil => intro s rest _ _ _ _; simp
  | cons c cs ih =>
    intro s rest hs hl hm hcs
    have hc := hcs c (List.mem_cons_self _ _)
    rw [List.cons_append,
      scanChars_cons_of_append (scanAhead_alnum c _ s hs hl hm hc),
      ih { s with token := s.token ++ [c], i := s.i + 1 } rest hs hl hm
        (fun d hd => hcs d (List.mem_cons_of_mem _ hd))]
    simp [Nat.add_assoc, Nat.add_comm 1]

/-- Identifiers without an underscore: an input that is a letter
followed by letters and digits (no underscore) and that is not a keyword gives exactly
one token, an Identifier whose value is the whole input. -/
theorem tokenize_plain_identifier (c : Char) (cs : List Char)
    (hc : isLetterChar c = true)
    (hcs : ∀ d ∈ cs, isLetterChar d = true ∨ isDigitChar d = true)
    (hk : isKeyword (c :: cs) = false) :
    tokenize (c :: cs) = .ok [⟨c :: cs, .Identifier⟩] := by
  rw [tokenize_eq]
  have hall : ∀ d ∈ c :: cs, isLetterChar d = true ∨ isDigitChar d = true := by
    intro d hd
    rcases List.mem_cons.mp hd with rfl | hd
    · exact Or.inl hc
    · exact hcs d hd
  have hrun := scanChars_alnum (c :: cs) initState [] rfl rfl rfl hall
  rw [List.append_nil] at hrun
  have h2 : isPreprocessorDirective (c :: cs) = false := by
    rw [Bool.eq_false_iff]
    intro h
    have : c = '#' := by simpa using isPreprocessorDirective_head h
    subst this
    exact absurd hc (by decide)
  have h3 : isIdentifier (c :: cs) = true := by
    simp only [isIdentifier, isIdentStart, hc, Bool.or_true, Bool.true_and,
      List.all_eq_true]
    intro d hd
    rcases hcs d hd with h | h <;> simp [isIdentChar, h]
  have hcl : classify ⟨c :: cs, .Unknown⟩ = ⟨c :: cs, .Identifier⟩ := by
    simp [classify, hk, h2, h3]
  rw [hrun]
  simp [scanChars, initState, flushUnknown, hcl]

/-- The word `myVar1` in `tokenize_plain_identifier`. -/
theorem tokenize_plain_identifier_witness :
    isLetterChar 'm' = true ∧
    (∀ d ∈ "yVar1".toList, isLetterChar d = true ∨ isDigitChar d = true) ∧
    isKeyword ('m' :: "yVar1".toList) = false ∧
    tokenize ('m' :: "yVar1".toList) = .ok [⟨'m' :: "yVar1".toList, .Identifier⟩] :=
  ⟨by decide, by decide, by decide,
    tokenize_plain_identifier 'm' "yVar1".toList (by decide) (by decide) (by decide)⟩

/-! ## The classification chain applied twice -/

theorem classify_value (t : Token) : (classify t).value = t.value := by
  unfold classify
  repeat' split
  all_goals rfl

/-- The chain either assigns a kind that depends on the value only, or keeps the
kind the token had. -/
theorem classify_cases (v : List Char) :
    (∃ k, ∀ ty, classify ⟨v, ty⟩ = ⟨v, k⟩) ∨ (∀ ty, classify ⟨v, ty⟩ = ⟨v, ty⟩) := by
  by_cases h1 : isKeyword v = true
  · exact Or.inl ⟨.Keyword, fun ty => by simp [classify, h1]⟩
  by_cases h2 : isPreprocessorDirective v = true
  · exact Or.inl ⟨.PreprocessorDirective, fun ty => by simp [classify, h1, h2]⟩
  by_cases h3 : isIdentifier v = true
  · exact Or.inl ⟨.Identifier, fun ty => by simp [classify, h1, h2, h3]⟩
  by_cases h4 : isHexadecimalNumber v = true
  · exact Or.inl ⟨.HexadecimalNumber, fun ty => by simp [classify, h1, h2, h3, h4]⟩
  by_cases h5 : isDecimalNumber v = true
  · exact Or.inl ⟨.DecimalNumber, fun ty => by simp [classify, h1, h2, h3, h4, h5]⟩
  by_cases h6 : isNumericConstant v = true
  · exact Or.inl ⟨.Number, fun ty => by simp [classify, h1, h2, h3, h4, h5, h6]⟩
  by_cases h7 : isOperator v = true
  · exact Or.inl ⟨.Operator, fun ty => by simp [classify, h1, h2, h3, h4, h5, h6, h7]⟩
  by_cases h8 : isDelimiter v = true
  · exact Or.inl ⟨.Punctuation, fun ty => by
      simp [classify, h1, h2, h3, h4, h5, h6, h7, h8]⟩
  by_cases h9 : isStringConstant v = true
  · exact Or.inl ⟨.String, fun ty => by
      simp [classify, h1, h2, h3, h4, h5, h6, h7, h8, h9]⟩
  · exact Or.inr (fun ty => by simp [classify, h1, h2, h3, h4, h5, h6, h7, h8, h9])

/-! ## Single punctuation characters -/

theorem ispunct_mem (c : Char) (h : ispunct c = true) (h1 : c ≠ '.') (h2 : c ≠ '#')
    (h3 : c ≠ '"') : c ∈ splitPunctChars := by
  rw [ispunct_iff] at h
  have hc : c = Char.ofNat c.toNat := (Char.ofNat_toNat c).symm
  generalize hn : c.toNat = n at h hc
  have hb : 33 ≤ n ∧ n ≤ 126 := by omega
  obtain ⟨hl, hu⟩ := hb
  interval_cases n <;> first | omega | (subst hc; first | decide | exact absurd rfl h1 | exact absurd rfl h2 | exact absurd rfl h3)

/-! ## The scan keeps every character that is neither whitespace nor a quote -/

theorem concatValues_append (ts us : List Token) :
    concatValues (ts ++ us) = concatValues ts ++ concatValues us := by
  simp [concatValues]

theorem concatValues_singleton (t : Token) : concatValues [t] = t.value := by
  simp [concatValues]

theorem concatValues_map_classify (ts : List Token) :
    concatValues (ts.map classify) = concatValues ts := by
  induction ts with
  | nil => rfl
  | cons t ts ih =>
    have h1 : concatValues (t :: ts) = t.value ++ concatValues ts := by simp [concatValues]
    have h2 : concatValues (classify t :: ts.map classify) =
        (classify t).value ++ concatValues (ts.map classify) := by simp [concatValues]
    rw [List.map_cons, h2, h1, ih, classify_value]

theorem pending_flushUnknown (s : ScanState) : pending (flushUnknown s) = pending s := by
  unfold flushUnknown pending
  split
  · simp [concatValues_append, concatValues_singleton]
  · rfl

theorem flushUnknown_tokens_concat (s : ScanState) :
    concatValues (flushUnknown s).tokens = pending s := by
  unfold flushUnknown pending
  split
  · simp [concatValues_append, concatValues_singleton]
  · rename_i h
    have : s.token = [] := by simpa using h
    simp [this]

theorem flushUnknown_token (s : ScanState) : (flushUnknown s).token = [] := by
  unfold flushUnknown
  split
  · rfl
  · rename_i h
    simpa using h

theorem commentStartAhead_pending (c : Char) (next : Option Char) (s : ScanState) :
    (commentStartAhead c next s).tokens = s.tokens ∧
    (commentStartAhead c next s).token = s.token := by
  unfold commentStartAhead
  repeat' split
  all_goals exact ⟨rfl, rfl⟩

/-- A step on a character that is neither whitespace nor a quote keeps every
character: it adds the current character, and the skipped `/` when it closes a block
comment. -/
theorem scanAhead_pending (c : Char) (next : Option Char) (s : ScanState)
    (hw : isspace c = false) (hq : c ≠ '"') :
    (skipsNext c next s = true ∧ next = some '/' ∧
      pending (scanAhead c next s) = pending s ++ [c, '/']) ∨
    (skipsNext c next s = false ∧ pending (scanAhead c next s) = pending s ++ [c]) := by
  have hn : (c == '\n') = false := by
    rw [Bool.eq_false_iff]
    intro h
    have : c = '\n' := by simpa using h
    subst this
    exact absurd hw (by decide)
  have hq2 : (c == '"') = false := by simpa using hq
  obtain ⟨ht, hk⟩ := commentStartAhead_pending c next s
  have hi := commentStartAhead_i c next s
  have hl : lineCommentEnd c (commentStartAhead c next s) = commentStartAhead c next s := by
    simp [lineCommentEnd, hn]
  generalize hs1 : commentStartAhead c next s = s1 at ht hk hi hl
  by_cases hcl : (s1.isMultiLineComment && c == '*' && next == some '/') = true
  · left
    have hstar : c = '*' := by
      simp only [Bool.and_eq_true, beq_iff_eq] at hcl
      exact hcl.1.2
    have hnext : next = some '/' := by
      simp only [Bool.and_eq_true, beq_iff_eq] at hcl
      exact hcl.2
    have hsa : scanAhead c next s =
        ⟨s1.tokens ++ [⟨s1.token ++ ['*', '/'], .Comment⟩], [], s1.isString,
          s1.isSingleLineComment, false, s1.i + 2⟩ := by
      simp only [scanAhead, hs1, hl, hcl, if_true]
    refine ⟨?_, hnext, ?_⟩
    · simp [skipsNext, hsa, hi]
    · rw [hsa]
      simp [pending, concatValues_append, concatValues_singleton, ht, hk, hstar]
  · right
    have hsa : scanAhead c next s = scanRest c s1 := by
      simp only [scanAhead, hs1, hl, hcl]
      simp
    refine ⟨?_, ?_⟩
    · apply skipsNext_eq_false_of_i
      rw [hsa, scanRest_i, hi]
    · rw [hsa]
      unfold scanRest
      simp only [hq2, hw]
      have hpf := flushUnknown_tokens_concat s1
      have hft := flushUnknown_token s1
      repeat' split
      all_goals
        simp_all [pending, concatValues_append, concatValues_singleton]


theorem scanChars_pending (n : Nat) :
    ∀ (suf : List Char) (s : ScanState), suf.length ≤ n →
      (∀ c ∈ suf, isspace c = false ∧ c ≠ '"') →
      pending (scanChars s suf) = pending s ++ suf := by
  induction n with
  | zero =>
    intro suf s h _
    have : suf = [] := List.length_eq_zero.mp (by omega)
    subst this
    simp [scanChars]
  | succ n ih =>
    intro suf s h hsuf
    match suf, h, hsuf with
    | [], _, _ => simp [scanChars]
    | [c], _, hsuf =>
      have hc := hsuf c (List.mem_cons_self _ _)
      rcases scanAhead_pending c none s hc.1 hc.2 with ⟨_, h2, _⟩ | ⟨_, h2⟩
      · exact absurd h2 (by simp)
      · simpa [scanChars] using h2
    | c :: d :: rest, h, hsuf =>
      have hc := hsuf c (List.mem_cons_self _ _)
      simp only [List.length_cons] at h
      have hrest : ∀ x ∈ rest, isspace x = false ∧ x ≠ '"' := fun x hx =>
        hsuf x (List.mem_cons_of_mem _ (List.mem_cons_of_mem _ hx))
      have hdrest : ∀ x ∈ d :: rest, isspace x = false ∧ x ≠ '"' := fun x hx =>
        hsuf x (List.mem_cons_of_mem _ hx)
      rcases scanAhead_pending c (some d) s hc.1 hc.2 with ⟨h1, h2, h3⟩ | ⟨h1, h3⟩
      · have hd : d = '/' := by simpa using h2
        simp only [scanChars, h1, if_true]
        rw [ih rest _ (by omega) hrest, h3, hd]
        simp
      · simp only [scanChars, h1]
        rw [if_neg (by simp), ih (d :: rest) _ (by simp only [List.length_cons]; omega) hdrest,
          h3]
        simp

/-! ## Operators in text without comments and strings -/

theorem PlainTokens_append {ts : List Token} {t : Token} (h : PlainTokens ts)
    (ht : t.type = .Unknown ∧ (t.value.length = 1 ∨ ∀ c ∈ t.value, isSplitPunct c = false)) :
    PlainTokens (ts ++ [t]) := by
  intro u hu
  rcases List.mem_append.mp hu with hu | hu
  · exact h u hu
  · have : u = t := by simpa using hu
    rw [this]; exact ht

theorem PlainTokens_flushUnknown {s : ScanState} (h : PlainState s) :
    PlainTokens (flushUnknown s).tokens := by
  obtain ⟨_, _, _, htok, hts⟩ := h
  unfold flushUnknown
  split
  · exact PlainTokens_append hts ⟨rfl, Or.inr htok⟩
  · exact hts

theorem flushUnknown_flags (s : ScanState) :
    (flushUnknown s).isString = s.isString ∧
    (flushUnknown s).isSingleLineComment = s.isSingleLineComment ∧
    (flushUnknown s).isMultiLineComment = s.isMultiLineComment := by
  unfold flushUnknown
  split <;> exact ⟨rfl, rfl, rfl⟩

/-- Outside strings and comments, a step on a character other than `/` and the quote
keeps the state plain and does not skip. -/
theorem scanAhead_plainState (c : Char) (next : Option Char) (s : ScanState)
    (h : PlainState s) (h1 : c ≠ '/') (h2 : c ≠ '"') :
    PlainState (scanAhead c next s) ∧ skipsNext c next s = false := by
  have hp := PlainTokens_flushUnknown h
  obtain ⟨hs, hl, hm, htok, hts⟩ := h
  obtain ⟨fs, fl, fm⟩ := flushUnknown_flags s
  have e1 : (c == '/') = false := by simpa using h1
  have e2 : (c == '"') = false := by simpa using h2
  have hsa : scanAhead c next s = scanRest c s := by
    simp [scanAhead, commentStartAhead, lineCommentEnd, e1, hl, hm]
  refine ⟨?_, ?_⟩
  · rw [hsa]
    by_cases hw : isspace c = true
    · have e : scanRest c s = { flushUnknown s with i := s.i + 1 } := by
        simp [scanRest, hs, hl, hm, e2, hw]
      rw [e]
      refine ⟨fs.trans hs, fl.trans hl, fm.trans hm, ?_, hp⟩
      show ∀ x ∈ (flushUnknown s).token, _
      rw [flushUnknown_token]
      intro x hx
      cases hx
    · by_cases hsp : isSplitPunct c = true
      · have e : scanRest c s = { flushUnknown s with
            tokens := (flushUnknown s).tokens ++ [⟨[c], .Unknown⟩], i := s.i + 1 } := by
          have hsp2 : (ispunct c && c != '.' && c != '#') = true := hsp
          simp only [scanRest, hs, hl, hm, e2, hw, hsp2]
          simp
        rw [e]
        refine ⟨fs.trans hs, fl.trans hl, fm.trans hm, ?_, ?_⟩
        · show ∀ x ∈ (flushUnknown s).token, _
          rw [flushUnknown_token]
          intro x hx
          cases hx
        · exact PlainTokens_append hp ⟨rfl, Or.inl rfl⟩
      · have e : scanRest c s = { s with token := s.token ++ [c], i := s.i + 1 } := by
          have hsp2 : (ispunct c && c != '.' && c != '#') = false := by
            simpa [isSplitPunct] using hsp
          simp only [scanRest, hs, hl, hm, e2, hw, hsp2]
          simp
        rw [e]
        refine ⟨hs, hl, hm, ?_, hts⟩
        intro x hx
        rcases List.mem_append.mp hx with hx | hx
        · exact htok x hx
        · have : x = c := by simpa using hx
          rw [this]
          simpa using hsp
  · apply skipsNext_eq_false_of_i
    rw [hsa, scanRest_i]

theorem scanChars_plainState (cs : List Char) :
    ∀ s : ScanState, PlainState s → (∀ c ∈ cs, c ≠ '/' ∧ c ≠ '"') →
      PlainState (scanChars s cs) := by
  induction cs with
  | nil => intro s h _; exact h
  | cons c cs ih =>
    intro s h hcs
    have hc := hcs c (List.mem_cons_self _ _)
    obtain ⟨hst, hsk⟩ := scanAhead_plainState c cs.head? s h hc.1 hc.2
    rw [scanChars_cons, hsk, if_neg (by simp)]
    exact ih _ hst (fun d hd => hcs d (List.mem_cons_of_mem _ hd))

theorem classify_operator_of_unknown (v : List Char)
    (h : (classify ⟨v, .Unknown⟩).type = .Operator) : isOperator v = true := by
  by_contra h7
  simp only [classify] at h
  split_ifs at h

theorem isOperator_plain {v : List Char} (h : isOperator v = true)
    (hv : v.length = 1 ∨ ∀ c ∈ v, isSplitPunct c = false) : v.length = 1 := by
  have hall : operators.all (fun o => o.length == 1 || o.any isSplitPunct) = true := by
    decide
  rw [List.all_eq_true] at hall
  have hm : v ∈ operators := by simpa [isOperator] using h
  have := hall v hm
  simp only [Bool.or_eq_true, beq_iff_eq, List.any_eq_true] at this
  rcases this with h1 | ⟨c, hc, hsp⟩
  · exact h1
  · rcases hv with h1 | h2
    · exact h1
    · rw [h2 c hc] at hsp
      exact absurd hsp (by decide)

/-! ## A word followed by a line comment, and a line comment without its newline -/

theorem alnum_facts {c : Char} (hc : isLetterChar c = true ∨ isDigitChar c = true) :
    ispunct c = false ∧ (c == '"') = false := by
  have hr : (97 ≤ c.toNat ∧ c.toNat ≤ 122) ∨ (65 ≤ c.toNat ∧ c.toNat ≤ 90) ∨
      (48 ≤ c.toNat ∧ c.toNat ≤ 57) := by
    rcases hc with h | h
    · rw [isLetterChar_iff] at h
      rcases h with h | h
      · exact Or.inl h
      · exact Or.inr (Or.inl h)
    · rw [isDigitChar_iff] at h
      exact Or.inr (Or.inr h)
  constructor
  · rw [Bool.eq_false_iff]
    intro h
    rw [ispunct_iff] at h
    omega
  · rw [Bool.eq_false_iff]
    intro h
    have : c = '"' := by simpa using h
    subst this
    simp at hr

/-- A token whose value starts with a letter or digit and holds a `/` keeps its value
and its kind. -/
theorem classify_of_alnum_head_slash (c : Char) (cs : List Char) (ty : TokenType)
    (hc : isLetterChar c = true ∨ isDigitChar c = true) (hs : '/' ∈ c :: cs) :
    classify ⟨c :: cs, ty⟩ = ⟨c :: cs, ty⟩ := by
  obtain ⟨hp, hq⟩ := alnum_facts hc
  obtain ⟨h1, h2, h3, h4, h5, h6⟩ :=
    not_word_number_of_mem hs (by decide) (by decide) (by decide) (by decide) (by decide)
  have h7 : isOperator (c :: cs) = false := by
    rw [Bool.eq_false_iff]
    intro h
    rw [isOperator_head h] at hp
    exact absurd hp (by decide)
  have h8 : isDelimiter (c :: cs) = false := by
    rw [Bool.eq_false_iff]
    intro h
    rw [isDelimiter_head h] at hp
    exact absurd hp (by decide)
  have h9 : isStringConstant (c :: cs) = false := by
    simp [isStringConstant, hq]
  simp only [classify, h1, h2, h3, h4, h5, h6, h7, h8, h9]
  simp

/-- A `/` followed by a `/`, met outside strings and comments, turns line-comment mode
on and joins the accumulator without flushing it. -/
theorem scanAhead_line_comment_start (toks : List Token) (tok : List Char) (n : Nat) :
    scanAhead '/' (some '/') ⟨toks, tok, false, false, false, n⟩ =
      ⟨toks, tok ++ ['/'], false, true, false, n + 1⟩ := by
  simp [scanAhead, commentStartAhead, lineCommentEnd, scanRest]

/-! ## The scan phase returns for every input -/

/-- C1 (the code differs): on `x = "hello world";` the function `tokenize` returns
four tokens, Identifier `x`, Operator `=`, a String token and Punctuation `;`, but the
value of the String token is `hello world"`: the closing quote is in the value, the
opening quote is not. -/
theorem tokenize_string_without_opening_quote :
    tokenize "x = \"hello world\";".toList =
      .ok [⟨"x".toList, .Identifier⟩, ⟨"=".toList, .Operator⟩,
           ⟨"hello world\"".toList, .String⟩, ⟨";".toList, .Punctuation⟩] := by
  decide

/-- C2 (the code differs): for the comment body `*`, which has no newline, the input
`//*` followed by a newline gives two tokens, Comment `//*` and an Unknown token that
holds the newline, not the single Comment token. -/
theorem tokenize_line_comment_with_block_start :
    tokenize "//*\n".toList =
      .ok [⟨"//*".toList, .Comment⟩, ⟨"\n".toList, .Unknown⟩] := by
  decide

/-- C3 (the code differs): for the comment body `/`, which does not contain `*/`, the
input `/*/*/x` gives four tokens, Comment `/*/`, Operator `*`, Operator `/` and
Identifier `x`: the star of the opening marker is taken as the start of the closing
marker. -/
theorem tokenize_block_comment_body_slash :
    tokenize "/*/*/x".toList =
      .ok [⟨"/*/".toList, .Comment⟩, ⟨"*".toList, .Operator⟩,
           ⟨"/".toList, .Operator⟩, ⟨"x".toList, .Identifier⟩] := by
  decide

/-- C4 (the code differs): `my_var` has the identifier shape and is not a keyword, yet
`tokenize` splits it at the underscore into three Identifier tokens `my`, `_`, `var`. -/
theorem tokenize_identifier_with_underscore :
    isIdentifier "my_var".toList = true ∧ isKeyword "my_var".toList = false ∧
    tokenize "my_var".toList =
      .ok [⟨"my".toList, .Identifier⟩, ⟨"_".toList, .Identifier⟩,
           ⟨"var".toList, .Identifier⟩] := by
  decide

/-- C5: for every string `k` of the keyword table, `tokenize k` is exactly one token
with value `k` and kind Keyword, and `k` also satisfies `isIdentifier`. -/
theorem tokenize_keyword (k : List Char) (hk : isKeyword k = true) :
    tokenize k = .ok [⟨k, .Keyword⟩] ∧ isIdentifier k = true := by
  have hall : ∀ k ∈ keywords,
      tokenize k = .ok [⟨k, .Keyword⟩] ∧ isIdentifier k = true := by decide
  exact hall k (by simpa [isKeyword] using hk)

/-- The keyword `class` is tokenized as one Keyword token. -/
theorem tokenize_keyword_witness :
    isKeyword "class".toList = true ∧
    (tokenize "class".toList = .ok [⟨"class".toList, .Keyword⟩] ∧
      isIdentifier "class".toList = true) :=
  ⟨by decide, tokenize_keyword "class".toList (by decide)⟩

/-- C6: the classification chain turns an Unknown span of hexadecimal shape into
HexadecimalNumber, one of decimal shape (zero or more digits, a dot, one or more
digits) into DecimalNumber, one of integer shape into Number, and leaves a span of
digits with one trailing dot Unknown. -/
theorem classify_numeric_shapes (v : List Char) :
    (HexShape v → classify ⟨v, .Unknown⟩ = ⟨v, .HexadecimalNumber⟩) ∧
    (DecimalShape v → classify ⟨v, .Unknown⟩ = ⟨v, .DecimalNumber⟩) ∧
    (IntegerShape v → classify ⟨v, .Unknown⟩ = ⟨v, .Number⟩) ∧
    (TrailingDotShape v → classify ⟨v, .Unknown⟩ = ⟨v, .Unknown⟩) :=
  ⟨classify_hex v, classify_decimal v, classify_integer v, classify_trailing_dot v⟩

/-- The spans `0x1A`, `3.14`, `.5`, `42` and `5.` have the four shapes and are
classified HexadecimalNumber, DecimalNumber, DecimalNumber, Number and Unknown. -/
theorem classify_numeric_shapes_witness :
    (HexShape "0x1A".toList ∧
      classify ⟨"0x1A".toList, .Unknown⟩ = ⟨"0x1A".toList, .HexadecimalNumber⟩) ∧
    (DecimalShape "3.14".toList ∧
      classify ⟨"3.14".toList, .Unknown⟩ = ⟨"3.14".toList, .DecimalNumber⟩) ∧
    (DecimalShape ".5".toList ∧
      classify ⟨".5".toList, .Unknown⟩ = ⟨".5".toList, .DecimalNumber⟩) ∧
    (IntegerShape "42".toList ∧
      classify ⟨"42".toList, .Unknown⟩ = ⟨"42".toList, .Number⟩) ∧
    (TrailingDotShape "5.".toList ∧
      classify ⟨"5.".toList, .Unknown⟩ = ⟨"5.".toList, .Unknown⟩) :=
  have hhex : HexShape "0x1A".toList :=
    ⟨'x', "1A".toList, rfl, Or.inl rfl, by decide, by decide⟩
  have hdec : DecimalShape "3.14".toList :=
    ⟨"3".toList, "14".toList, rfl, by decide, by decide, by decide⟩
  have hdot : DecimalShape ".5".toList :=
    ⟨[], "5".toList, rfl, by decide, by decide, by decide⟩
  have hint : IntegerShape "42".toList := ⟨by decide, by decide⟩
  have htrail : TrailingDotShape "5.".toList :=
    ⟨"5".toList, rfl, by decide, by decide⟩
  ⟨⟨hhex, (classify_numeric_shapes _).1 hhex⟩,
   ⟨hdec, (classify_numeric_shapes _).2.1 hdec⟩,
   ⟨hdot, (classify_numeric_shapes _).2.1 hdot⟩,
   ⟨hint, (classify_numeric_shapes _).2.2.1 hint⟩,
   ⟨htrail, (classify_numeric_shapes _).2.2.2 htrail⟩⟩

/-- C7: for every directive `d` of the preprocessor-directive table, `tokenize` applied
to `d` followed by ` MAX 100` returns exactly PreprocessorDirective `d`, Identifier
`MAX`, Number `100`. -/
theorem tokenize_directive_line (d : List Char) (hd : isPreprocessorDirective d = true) :
    tokenize (d ++ " MAX 100".toList) =
      .ok [⟨d, .PreprocessorDirective⟩, ⟨"MAX".toList, .Identifier⟩,
           ⟨"100".toList, .Number⟩] := by
  have hall : ∀ d ∈ preprocessorKeywords, tokenize (d ++ " MAX 100".toList) =
      .ok [⟨d, .PreprocessorDirective⟩, ⟨"MAX".toList, .Identifier⟩,
           ⟨"100".toList, .Number⟩] := by decide
  exact hall d (by simpa [isPreprocessorDirective] using hd)

/-- The line `#define MAX 100` gives PreprocessorDirective, Identifier, Number. -/
theorem tokenize_directive_line_witness :
    isPreprocessorDirective "#define".toList = true ∧
    tokenize "#define MAX 100".toList =
      .ok [⟨"#define".toList, .PreprocessorDirective⟩, ⟨"MAX".toList, .Identifier⟩,
           ⟨"100".toList, .Number⟩] :=
  ⟨by decide, tokenize_directive_line "#define".toList (by decide)⟩

/-- C8 (the code differs): on the three-character input `"a"` the only token is String
`a"`; the concatenated values omit the opening quote, which is not whitespace, so the
output does not arise from the input by deleting whitespace only. -/
theorem tokenize_omits_opening_quote :
    tokenize "\"a\"".toList = .ok [⟨"a\"".toList, .String⟩] ∧
    isspace '"' = false ∧
    deletesOnly isspace "\"a\"".toList (concatValues [⟨"a\"".toList, .String⟩]) = false := by
  decide

/-- C10 (the code differs): on `//*/int` followed by a newline the scan phase emits
Comment `//*/` and Comment `int`, and the classification phase turns the second one
into Keyword `int`. -/
theorem classify_changes_comment_token :
    scan "//*/int\n".toList =
      .ok [⟨"//*/".toList, .Comment⟩, ⟨"int".toList, .Comment⟩] ∧
    tokenize "//*/int\n".toList =
      .ok [⟨"//*/".toList, .Comment⟩, ⟨"int".toList, .Keyword⟩] := by
  decide

/-- C11: the classification chain is idempotent: for every token, of any value and any
kind, applying the chain to the classified token gives the classified token again,
so its kind does not change on a second run. -/
theorem classify_idempotent (t : Token) : classify (classify t) = classify t := by
  cases t with
  | mk v ty =>
    rcases classify_cases v with ⟨k, hk⟩ | h
    · rw [hk ty, hk k]
    · rw [h ty, h ty]

/-- C12: the operator table and the delimiter table are disjoint: no string satisfies
both `isOperator` and `isDelimiter`. -/
theorem operator_delimiter_disjoint (s : List Char) :
    (isOperator s && isDelimiter s) = false := by
  rw [Bool.and_eq_false_iff]
  by_cases h : isDelimiter s = true
  · left
    have hm : s ∈ delimiters := by simpa [isDelimiter] using h
    have hall : ∀ d ∈ delimiters, isOperator d = false := by decide
    exact hall s hm
  · right
    simpa using h

/-- C13 (the code differs): on `//*/` followed by a newline the result holds a Comment
token whose value is empty. -/
theorem tokenize_empty_comment_token :
    tokenize "//*/\n".toList =
      .ok [⟨"//*/".toList, .Comment⟩, ⟨[], .Comment⟩] := by
  decide

/-- C14 (the code differs): on the input `//*` the first iteration of the scan loop
leaves exactly one flag true, the second iteration (at the second `/`, which is
followed by `*`) sets `isMultiLineComment` while `isSingleLineComment` is true, and
after the loop has processed the whole input both flags are true. -/
theorem scan_both_comment_flags :
    scanStep "//*".toList initState = .ok ⟨[], "/".toList, false, true, false, 1⟩ ∧
    scanStep "//*".toList ⟨[], "/".toList, false, true, false, 1⟩ =
      .ok ⟨[], "//".toList, false, true, true, 2⟩ ∧
    scanLoop "//*".toList 3 initState =
      .ok ⟨[], "//*".toList, false, true, true, 3⟩ := by
  decide

/-- C15, as stated, fails: `$` is a punctuation character other than `.`, `#` and the
double quote, and `tokenize` returns it as one token of kind Unknown. -/
theorem tokenize_dollar_unknown :
    ispunct '$' = true ∧ '$' ≠ '.' ∧ '$' ≠ '#' ∧ '$' ≠ '"' ∧
    tokenize ['$'] = .ok [⟨['$'], .Unknown⟩] := by
  decide

/-- C15, amended: for every punctuation character `c` other than `.`, `#` and the
double quote, `tokenize` applied to the one-character input `c` returns exactly one
token with value `c`; its kind is Operator when `c` is in the operator table,
Punctuation when `c` is in the delimiter table, Identifier for the underscore, and
Unknown for the dollar sign, the at sign, the apostrophe, the backslash and the
backtick. -/
theorem tokenize_single_punct (c : Char) (hp : ispunct c = true) (h1 : c ≠ '.')
    (h2 : c ≠ '#') (h3 : c ≠ '"') :
    (isOperator [c] = true ∧ tokenize [c] = .ok [⟨[c], .Operator⟩]) ∨
    (isDelimiter [c] = true ∧ tokenize [c] = .ok [⟨[c], .Punctuation⟩]) ∨
    (c = '_' ∧ tokenize [c] = .ok [⟨[c], .Identifier⟩]) ∨
    (c ∈ ['$', '@', '\x27', '\x5c', '\x60'] ∧ tokenize [c] = .ok [⟨[c], .Unknown⟩]) := by
  have hall : ∀ c ∈ splitPunctChars,
      (isOperator [c] = true ∧ tokenize [c] = .ok [⟨[c], .Operator⟩]) ∨
      (isDelimiter [c] = true ∧ tokenize [c] = .ok [⟨[c], .Punctuation⟩]) ∨
      (c = '_' ∧ tokenize [c] = .ok [⟨[c], .Identifier⟩]) ∨
      (c ∈ ['$', '@', '\x27', '\x5c', '\x60'] ∧
        tokenize [c] = .ok [⟨[c], .Unknown⟩]) := by decide
  exact hall c (ispunct_mem c hp h1 h2 h3)

/-- The character `=` in `tokenize_single_punct`: it is in the operator table. -/
theorem tokenize_single_punct_witness :
    ispunct '=' = true ∧ '=' ≠ '.' ∧ '=' ≠ '#' ∧ '=' ≠ '"' ∧
    ((isOperator ['='] = true ∧ tokenize ['='] = .ok [⟨['='], .Operator⟩]) ∨
     (isDelimiter ['='] = true ∧ tokenize ['='] = .ok [⟨['='], .Punctuation⟩]) ∨
     ('=' = '_' ∧ tokenize ['='] = .ok [⟨['='], .Identifier⟩]) ∨
     ('=' ∈ ['$', '@', '\x27', '\x5c', '\x60'] ∧
       tokenize ['='] = .ok [⟨['='], .Unknown⟩])) :=
  ⟨by decide, by decide, by decide, by decide,
    tokenize_single_punct '=' (by decide) (by decide) (by decide) (by decide)⟩

/-- C16 (the code differs): on `//*/"a"` the scan phase emits the span `"a"` tagged
Unknown; the span satisfies `isStringConstant`, and the String token of the result
comes from the string-shape step of the chain. -/
theorem scan_unknown_string_shape :
    scan "//*/\"a\"".toList =
      .ok [⟨"//*/".toList, .Comment⟩, ⟨"\"a\"".toList, .Unknown⟩] ∧
    isStringConstant "\"a\"".toList = true ∧
    tokenize "//*/\"a\"".toList =
      .ok [⟨"//*/".toList, .Comment⟩, ⟨"\"a\"".toList, .String⟩] := by
  decide

/-- C17: for every input that contains neither `/` nor the double quote, `tokenize`
returns a token list in which every token of kind Operator has a value of exactly one
character. -/
theorem tokenize_operator_single_char (code : List Char) (h1 : '/' ∉ code)
    (h2 : '"' ∉ code) :
    ∃ ts, tokenize code = .ok ts ∧
      ∀ t ∈ ts, t.type = .Operator → t.value.length = 1 := by
  refine ⟨_, tokenize_eq code, ?_⟩
  have hinit : PlainState initState := by
    refine ⟨rfl, rfl, rfl, ?_, ?_⟩
    · intro c hc; cases hc
    · intro t ht; cases ht
  have hfin := scanChars_plainState code initState hinit (fun c hc =>
    ⟨fun e => h1 (e ▸ hc), fun e => h2 (e ▸ hc)⟩)
  have hts := PlainTokens_flushUnknown hfin
  intro t ht htype
  obtain ⟨t0, ht0, rfl⟩ := List.mem_map.mp ht
  obtain ⟨hty, hval⟩ := hts t0 ht0
  cases t0 with
  | mk v ty =>
    simp only at hty hval
    subst hty
    rw [classify_value]
    exact isOperator_plain (classify_operator_of_unknown v htype) hval

/-- The input `a == b` has no `/` and no quote; its two Operator tokens are `=` and
`=`. -/
theorem tokenize_operator_single_char_witness :
    '/' ∉ "a == b".toList ∧ '"' ∉ "a == b".toList ∧
    (∃ ts, tokenize "a == b".toList = .ok ts ∧
      ∀ t ∈ ts, t.type = .Operator → t.value.length = 1) ∧
    tokenize "a == b".toList =
      .ok [⟨"a".toList, .Identifier⟩, ⟨"=".toList, .Operator⟩,
           ⟨"=".toList, .Operator⟩, ⟨"b".toList, .Identifier⟩] :=
  ⟨by decide, by decide,
    tokenize_operator_single_char "a == b".toList (by decide) (by decide), by decide⟩

/-- C18: for every non-empty `p` of letters and digits and every `b` without a newline
such that `//` + `b` does not contain `/*`, `tokenize` applied to `p` + `//` + `b` +
newline returns exactly one token, of kind Comment, with value `p` + `//` + `b`. -/
theorem tokenize_word_then_line_comment (p b : List Char) (hne : p ≠ [])
    (hp : ∀ c ∈ p, isLetterChar c = true ∨ isDigitChar c = true)
    (hb : ∀ c ∈ b, c ≠ '\n') (hpair : hasPair '/' '*' ("//".toList ++ b) = false) :
    tokenize (p ++ "//".toList ++ b ++ "\n".toList) =
      .ok [⟨p ++ "//".toList ++ b, .Comment⟩] := by
  rw [tokenize_eq]
  have hp2 : hasPair '/' '*' ('/' :: b) = false :=
    (hasPair_cons_cons (show hasPair '/' '*' ('/' :: '/' :: b) = false from hpair)).2
  have hp3 : hasPair '/' '*' (('/' :: b) ++ (['\n'] : List Char).head?.toList) = false :=
    hasPair_append_singleton '/' '*' '\n' (by decide) _ hp2
  have hb2 : ∀ c ∈ '/' :: b, c ≠ '\n' := by
    intro c hc
    rcases List.mem_cons.mp hc with rfl | hc
    · decide
    · exact hb c hc
  have hrun0 := scanChars_alnum p initState ('/' :: '/' :: (b ++ ['\n'])) rfl rfl rfl hp
  have hstart := scanAhead_line_comment_start [] ([] ++ p) (0 + p.length)
  have hrun := scanChars_in_line_comment ('/' :: b)
    ⟨[], [] ++ p ++ ['/'], false, true, false, 0 + p.length + 1⟩ ['\n'] rfl rfl hb2 hp3
  have hcl : classify ⟨p ++ '/' :: '/' :: b, .Comment⟩ = ⟨p ++ '/' :: '/' :: b, .Comment⟩ := by
    cases p with
    | nil => exact absurd rfl hne
    | cons c cs =>
      exact classify_of_alnum_head_slash c _ _ (hp c (List.mem_cons_self _ _)) (by simp)
  show Except.ok (List.map classify (flushUnknown (scanChars initState
    (p ++ ['/', '/'] ++ b ++ ['\n']))).tokens) = Except.ok [⟨p ++ ['/', '/'] ++ b, .Comment⟩]
  have e : p ++ ['/', '/'] ++ b ++ ['\n'] = p ++ '/' :: '/' :: (b ++ ['\n']) := by simp
  rw [e, hrun0]
  show Except.ok (List.map classify (flushUnknown (scanChars
    ⟨[], [] ++ p, false, false, false, 0 + p.length⟩
    ('/' :: '/' :: (b ++ ['\n'])))).tokens) = _
  rw [scanChars_cons]
  simp only [List.head?_cons]
  rw [skipsNext_eq_false_of_i (by rw [hstart]), if_neg (by simp), hstart]
  simp only [List.cons_append] at hrun
  rw [hrun, scanChars_end_line_comment]
  simp [flushUnknown]
  simpa using hcl

/-- The word `int` and the comment body ` c` in `tokenize_word_then_line_comment`. -/
theorem tokenize_word_then_line_comment_witness :
    "int".toList ≠ [] ∧
    (∀ c ∈ "int".toList, isLetterChar c = true ∨ isDigitChar c = true) ∧
    (∀ c ∈ " c".toList, c ≠ '\n') ∧
    hasPair '/' '*' ("//".toList ++ " c".toList) = false ∧
    tokenize ("int".toList ++ "//".toList ++ " c".toList ++ "\n".toList) =
      .ok [⟨"int".toList ++ "//".toList ++ " c".toList, .Comment⟩] :=
  ⟨by decide, by decide, by decide, by decide,
    tokenize_word_then_line_comment "int".toList " c".toList (by decide) (by decide)
      (by decide) (by decide)⟩

/-- C19: for every input without a whitespace character and without a double quote,
`tokenize` returns a token list whose values, concatenated in output order, are
exactly the input. -/
theorem tokenize_lossless (code : List Char)
    (h : ∀ c ∈ code, isspace c = false ∧ c ≠ '"') :
    ∃ ts, tokenize code = .ok ts ∧ concatValues ts = code := by
  refine ⟨_, tokenize_eq code, ?_⟩
  rw [concatValues_map_classify, flushUnknown_tokens_concat,
    scanChars_pending code.length code initState (Nat.le_refl _) h]
  simp [pending, initState, concatValues]

/-- The input `a=b+1;//x/*y*/z` has no whitespace and no quote. -/
theorem tokenize_lossless_witness :
    (∀ c ∈ "a=b+1;//x/*y*/z".toList, isspace c = false ∧ c ≠ '"') ∧
    ∃ ts, tokenize "a=b+1;//x/*y*/z".toList = .ok ts ∧
      concatValues ts = "a=b+1;//x/*y*/z".toList :=
  ⟨by decide, tokenize_lossless "a=b+1;//x/*y*/z".toList (by decide)⟩

/-- C20: for every `b` without a newline such that `//` + `b` does not contain `/*`,
`tokenize` applied to `//` + `b` (no newline at the end) returns exactly one token,
with value `//` + `b` and kind Unknown. -/
theorem tokenize_unterminated_line_comment (b : List Char) (hb : ∀ c ∈ b, c ≠ '\n')
    (hpair : hasPair '/' '*' ("//".toList ++ b) = false) :
    tokenize ("//".toList ++ b) = .ok [⟨"//".toList ++ b, .Unknown⟩] := by
  rw [tokenize_eq]
  have hp2 : hasPair '/' '*' (('/' :: b) ++ ([] : List Char).head?.toList) = false := by
    have := (hasPair_cons_cons (show hasPair '/' '*' ('/' :: '/' :: b) = false from hpair)).2
    simpa using this
  have hb2 : ∀ c ∈ '/' :: b, c ≠ '\n' := by
    intro c hc
    rcases List.mem_cons.mp hc with rfl | hc
    · decide
    · exact hb c hc
  have hstart := scanAhead_line_comment_start [] [] 0
  have hrun := scanChars_in_line_comment ('/' :: b)
    ⟨[], [] ++ ['/'], false, true, false, 0 + 1⟩ [] rfl rfl hb2 hp2
  show Except.ok (List.map classify (flushUnknown (scanChars
    ⟨[], [], false, false, false, 0⟩ ('/' :: '/' :: b))).tokens) =
      Except.ok [⟨'/' :: '/' :: b, .Unknown⟩]
  rw [scanChars_cons]
  simp only [List.head?_cons]
  rw [skipsNext_eq_false_of_i (by rw [hstart]), if_neg (by simp), hstart]
  rw [List.append_nil] at hrun
  rw [hrun]
  simp [scanChars, flushUnknown, classify_of_comment_start]

/-- The comment body ` c` in `tokenize_unterminated_line_comment`. -/
theorem tokenize_unterminated_line_comment_witness :
    (∀ c ∈ " c".toList, c ≠ '\n') ∧
    hasPair '/' '*' ("//".toList ++ " c".toList) = false ∧
    tokenize ("//".toList ++ " c".toList) =
      .ok [⟨"//".toList ++ " c".toList, .Unknown⟩] :=
  ⟨by decide, by decide,
    tokenize_unterminated_line_comment " c".toList (by decide) (by decide)⟩

end Lab3SP
